import Mathlib

/-!
VWebView (vnote): clipboard rewriting and context-menu glue.

A shallow embedding of `src/vwebview.cpp`.

* A `QString` is a `List Char` (one list element per `QChar`), positions and
  sizes are `Nat`.
* The two `QRegExp` patterns of `removeStyles` are embedded as matchers that
  decide, for a text, whether the pattern matches at its head and how long the
  match is. Both patterns have at most one match length at a given start, so
  the matcher is the whole of the engine's behaviour on them; the theorems
  `tagRegMatch_shape` and `styleRegMatch_some` spell out the texts they match.
  `styleRegMatch` is the pattern of a style name that is literal text in it.
* The pattern of a style name is a regular expression of its own when the
  name has characters that mean something in a `QRegExp`. `removeStyles` is
  the function for names that are plain CSS identifiers; `removeStylesWith`
  takes the replacement that the pattern of a name makes as a parameter, of
  which it is only known that a match is replaced by a part of itself, and is
  the function for names of any kind. `qRegExpReplace` runs patterns with
  alternatives.
* The `while` loop of `removeStyles` runs on fuel; the theorems show that the
  size of the HTML is enough fuel.
* Widgets, actions and the clipboard are records; a `QAction *` is an index
  into the store of actions, `none` is the null pointer.
-/

namespace VNote

/-! ## Strings and the two regular expressions of `removeStyles` -/

/-- The `QString` of the source: a list of characters. -/
abbrev QString := List Char

/-- `QChar::isSpace`, the class `\s` of `QRegExp`: the ASCII blanks
U+0009..U+000D and U+0020, U+0085, U+00A0 and the Unicode separators. -/
def isSpace (c : Char) : Bool :=
  c.toNat = 0x20 || (0x09 ≤ c.toNat && c.toNat ≤ 0x0D) || c.toNat = 0x85 || c.toNat = 0xA0
    || c.toNat = 0x1680 || (0x2000 ≤ c.toNat && c.toNat ≤ 0x200A) || c.toNat = 0x2028
    || c.toNat = 0x2029 || c.toNat = 0x202F || c.toNat = 0x205F || c.toNat = 0x3000

/-- The alternative `(\s|")` that opens the pattern of a style declaration. -/
def isSep (c : Char) : Bool :=
  isSpace c || c = '"'

/-- The literal text `style=`. -/
def styleEq : QString := ['s', 't', 'y', 'l', 'e', '=']

/-- The piece `\sstyle=` of `tagReg` matches at the head of the text. -/
def styleAttrHere : QString → Bool
  | [] => false
  | c :: rest => isSpace c && styleEq.isPrefixOf rest

/-- The piece `\sstyle=` of `tagReg` matches somewhere in the text. -/
def styleAttrIn : QString → Bool
  | [] => false
  | c :: rest => styleAttrHere (c :: rest) || styleAttrIn rest

/-- The piece `[^>]+\sstyle=[^>]*` of `tagReg` matches the whole of a text
that is free of `>`: at least one character, then `\sstyle=` somewhere. -/
def tagBodyMatches : QString → Bool
  | [] => false
  | _ :: rest => styleAttrIn rest

/-- The pattern `(<[^>]+\sstyle=[^>]*>)` of `tagReg` at the head of a text:
the length of the match, `none` when there is none. The match runs from `<`
to the first `>` after it. -/
def tagRegMatch : QString → Option Nat
  | [] => none
  | c :: t =>
    let body := t.takeWhile (fun x => x != '>')
    if c = '<' ∧ body.length < t.length ∧ tagBodyMatches body = true then
      some (body.length + 2)
    else none

/-- The search of `tagReg` through a text whose head is at index `i` of the
HTML: index and length of the first match. -/
def searchTag : QString → Nat → Option (Nat × Nat)
  | [], _ => none
  | c :: t, i =>
    match tagRegMatch (c :: t) with
    | some len => some (i, len)
    | none => searchTag t (i + 1)

/-- The call `p_html.indexOf(tagReg, pos)` with `tagReg.matchedLength()`. -/
def indexOfTag (html : QString) (pos : Nat) : Option (Nat × Nat) :=
  searchTag (html.drop pos) pos

/-- The pattern `(\s|")%1:[^;]+;` with the style name for `%1`, at the head of
a text, for a style name that the pattern holds as literal text (a plain CSS
identifier): the length of the match, `none` when there is none. A name with
characters that mean something in a `QRegExp` is not covered here, see
`removeStylesWith`. -/
def styleRegMatch (sty : QString) : QString → Option Nat
  | [] => none
  | c :: t =>
    let u := t.drop (sty.length + 1)
    let v := u.takeWhile (fun x => x != ';')
    if isSep c = true ∧ (sty ++ [':']).isPrefixOf t = true ∧ 0 < v.length ∧ v.length < u.length then
      some (sty.length + v.length + 3)
    else none

/-- The scan of `QString::replace(reg, "\\1")`: with `skip` characters of the
last match still to drop, every match found from left to right is replaced by
its first character, the capture `\1`, and the search goes on behind it. -/
def replaceGo (sty : QString) : Nat → QString → QString
  | _, [] => []
  | skip + 1, _ :: rest => replaceGo sty skip rest
  | 0, c :: rest =>
    match styleRegMatch sty (c :: rest) with
    | some len => c :: replaceGo sty (len - 1) rest
    | none => c :: replaceGo sty 0 rest

/-- The call `alteredStyleStr.replace(reg, "\\1")` for one style name. -/
def replaceStyle (sty : QString) (s : QString) : QString :=
  replaceGo sty 0 s

/-- The `for` loop over the configured styles: the tag after the declarations
of every style were replaced, one style after the other. -/
def alterTag (styles : List QString) (styleStr : QString) : QString :=
  styles.foldl (fun altered sty => replaceStyle sty altered) styleStr

/-! ## The loop of `removeStyles` -/

/-- The variables of the `while` loop of `removeStyles`. -/
structure LoopState where
  html : QString
  pos : Nat
  changed : Bool
deriving DecidableEq, Repr

/-- One run of the body of the `while` loop: `none` is the `break` taken when
`indexOf` returns -1. -/
def loopBody (styles : List QString) (st : LoopState) : Option LoopState :=
  match indexOfTag st.html st.pos with
  | none => none
  | some (idx, matchedLength) =>
    let styleStr := (st.html.drop idx).take matchedLength
    let alteredStyleStr := alterTag styles styleStr
    let pos := idx + matchedLength
    if styleStr ≠ alteredStyleStr then
      some { html := st.html.take idx ++ alteredStyleStr ++ st.html.drop (idx + matchedLength),
             pos := pos + alteredStyleStr.length - styleStr.length,
             changed := true }
    else
      some { st with pos := pos }

/-- The `while (pos < p_html.size())` loop on fuel: the state it ends in and
the number of times the body ran, `none` when the fuel runs out. -/
def whileLoop (styles : List QString) : Nat → LoopState → Option (LoopState × Nat)
  | 0, st => if st.pos < st.html.length then none else some (st, 0)
  | fuel + 1, st =>
    if st.pos < st.html.length then
      match loopBody styles st with
      | none => some (st, 1)
      | some st' => (whileLoop styles fuel st').map (fun r => (r.1, r.2 + 1))
    else some (st, 0)

/-- The runs of the `while` loop without fuel: from a state, the state the
loop ends in and the number of times the body ran. -/
inductive Run (styles : List QString) : LoopState → LoopState → Nat → Prop
  | exit (st : LoopState) : ¬ st.pos < st.html.length → Run styles st st 0
  | brk (st : LoopState) : st.pos < st.html.length → loopBody styles st = none →
      Run styles st st 1
  | step (st st' r : LoopState) (n : Nat) : st.pos < st.html.length →
      loopBody styles st = some st' → Run styles st' r n → Run styles st r (n + 1)

/-- The state in which `removeStyles` enters its loop. -/
def initState (p_html : QString) : LoopState :=
  { html := p_html, pos := 0, changed := false }

/-- The function `VWebView::removeStyles` for style names that are plain CSS
identifiers, with the configured styles as an argument: the returned flag and
the HTML it leaves in `p_html`. The loop gets the size of the HTML as fuel.
`removeStylesWith` is the function for style names of any kind. -/
def removeStyles (styles : List QString) (p_html : QString) : Option (Bool × QString) :=
  if styles.isEmpty then some (false, p_html)
  else
    (whileLoop styles p_html.length (initState p_html)).map
      (fun r => (r.1.changed, r.1.html))

/-- Some declaration of the style, `name:value;` behind a blank or a double
quote, is in the text. -/
def hasDecl (sty : QString) : QString → Bool
  | [] => false
  | c :: rest => (styleRegMatch sty (c :: rest)).isSome || hasDecl sty rest

/-- The text made of pieces, each the text in front of a tag and the tag. -/
def origText : List (QString × QString) → QString
  | [] => []
  | seg :: rest => seg.1 ++ seg.2 ++ origText rest

/-- A character of a plain CSS identifier: an ASCII letter, a digit, `-` or
`_`. -/
def isIdentChar (c : Char) : Bool :=
  (0x61 ≤ c.toNat && c.toNat ≤ 0x7A) || (0x41 ≤ c.toNat && c.toNat ≤ 0x5A)
    || (0x30 ≤ c.toNat && c.toNat ≤ 0x39) || c.toNat = 0x2D || c.toNat = 0x5F

/-- A style name that is a plain CSS identifier: not empty and made of
identifier characters only. -/
def isPlainName (sty : QString) : Bool :=
  !sty.isEmpty && sty.all isIdentChar

/-- The first text occurs somewhere in the second. -/
def occurs (p : QString) : QString → Bool
  | [] => p.isEmpty
  | c :: rest => p.isPrefixOf (c :: rest) || occurs p rest

/-- The style name stands in the text directly behind a semicolon and in front
of a colon, as in `a:x;name:y;`. -/
def followsSemicolon (sty : QString) (s : QString) : Bool :=
  occurs (';' :: (sty ++ [':'])) s

/-- Every match of `tagReg` that starts in the part `D` of a text, whatever
follows `D`, ends in `D` and holds no declaration of a listed style. -/
def CleanUpTo (styles : List QString) (D : QString) : Prop :=
  ∀ (z : QString) (i len : Nat), i < D.length → tagRegMatch ((D ++ z).drop i) = some len →
    i + len ≤ D.length ∧ ∀ sty ∈ styles, hasDecl sty (((D ++ z).drop i).take len) = false

/-! ## `removeStyles` with the regular expression of a style as a parameter -/

/-- The text `regPatt.arg(sty)`: the pattern `(\s|")%1:[^;]+;` with the style
name in the place of `%1`. -/
def stylePattern (sty : QString) : QString :=
  ['(', '\\', 's', '|', '"', ')'] ++ sty ++ [':', '[', '^', ';', ']', '+', ';']

/-- What holds of the call `alteredStyleStr.replace(QRegExp(regPatt.arg(sty)),
"\\1")`, given as a function of the style name and the text, whatever the
style name is: every match is replaced by the text that the group `(\s|")`
captured in it, which is a part of the match or empty, and an invalid pattern
matches nothing; so the text it leaves is the text with characters removed. -/
def CaptureWithinMatch (replace : QString → QString → QString) : Prop :=
  ∀ sty s : QString, (replace sty s).Sublist s

/-- For a style name that is a plain CSS identifier the pattern holds the name
as literal text, and the call is `replaceStyle`. -/
def LiteralOnPlainNames (replace : QString → QString → QString) : Prop :=
  ∀ sty : QString, isPlainName sty = true → ∀ s : QString, replace sty s = replaceStyle sty s

/-- The `for` loop over the configured styles, with the replacement for a
style name given as a function. -/
def alterTagWith (replace : QString → QString → QString) (styles : List QString)
    (styleStr : QString) : QString :=
  styles.foldl (fun altered sty => replace sty altered) styleStr

/-- One run of the body of the `while` loop, with the `for` loop over the
styles given as a function of the tag: `none` is the `break` taken when
`indexOf` returns -1. -/
def loopBodyBy (alter : QString → QString) (st : LoopState) : Option LoopState :=
  match indexOfTag st.html st.pos with
  | none => none
  | some (idx, matchedLength) =>
    let styleStr := (st.html.drop idx).take matchedLength
    let alteredStyleStr := alter styleStr
    let pos := idx + matchedLength
    if styleStr ≠ alteredStyleStr then
      some { html := st.html.take idx ++ alteredStyleStr ++ st.html.drop (idx + matchedLength),
             pos := pos + alteredStyleStr.length - styleStr.length,
             changed := true }
    else
      some { st with pos := pos }

/-- The `while (pos < p_html.size())` loop on fuel for `loopBodyBy`: the state
it ends in and the number of times the body ran, `none` when the fuel runs
out. -/
def whileLoopBy (alter : QString → QString) : Nat → LoopState → Option (LoopState × Nat)
  | 0, st => if st.pos < st.html.length then none else some (st, 0)
  | fuel + 1, st =>
    if st.pos < st.html.length then
      match loopBodyBy alter st with
      | none => some (st, 1)
      | some st' => (whileLoopBy alter fuel st').map (fun r => (r.1, r.2 + 1))
    else some (st, 0)

/-- The runs of the `while` loop for `loopBodyBy` without fuel. -/
inductive RunBy (alter : QString → QString) : LoopState → LoopState → Nat → Prop
  | exit (st : LoopState) : ¬ st.pos < st.html.length → RunBy alter st st 0
  | brk (st : LoopState) : st.pos < st.html.length → loopBodyBy alter st = none →
      RunBy alter st st 1
  | step (st st' r : LoopState) (n : Nat) : st.pos < st.html.length →
      loopBodyBy alter st = some st' → RunBy alter st' r n → RunBy alter st r (n + 1)

/-- The function `VWebView::removeStyles` for style names of any kind: the
configured styles and the replacement that the regular expression of a style
name makes are arguments. The loop gets the size of the HTML as fuel. -/
def removeStylesWith (replace : QString → QString → QString) (styles : List QString)
    (p_html : QString) : Option (Bool × QString) :=
  if styles.isEmpty then some (false, p_html)
  else
    (whileLoopBy (alterTagWith replace styles) p_html.length (initState p_html)).map
      (fun r => (r.1.changed, r.1.html))

/-- The text made of the pieces with every tag rewritten by the function. -/
def alteredTextBy (alter : QString → QString) : List (QString × QString) → QString
  | [] => []
  | seg :: rest => seg.1 ++ alter seg.2 ++ alteredTextBy alter rest

/-! ## A `QRegExp` for patterns with alternatives -/

/-- The one-character pieces of a pattern: a literal character, `\s`, `.` and
a class `[^c]` that shuts one character out. -/
inductive CharClass where
  | lit (c : Char)
  | space
  | anyChar
  | notChar (c : Char)
deriving DecidableEq, Repr

/-- The character is one of the class. -/
def CharClass.test : CharClass → Char → Bool
  | CharClass.lit c, x => x == c
  | CharClass.space, x => isSpace x
  | CharClass.anyChar, _ => true
  | CharClass.notChar c, x => x != c

/-- The quantifier behind a one-character piece: none, `*`, `+` or `?`. -/
inductive Quant where
  | one
  | star
  | plus
  | opt
deriving DecidableEq, Repr

/-- The tokens of a pattern without groups. -/
inductive Tok where
  | cls (c : CharClass)
  | quant (q : Quant)
  | bar
deriving DecidableEq, Repr

/-- The characters with a meaning of their own in a `QRegExp`. -/
def isMetaChar (c : Char) : Bool :=
  c = '\\' || c = '.' || c = '[' || c = ']' || c = '(' || c = ')' || c = '|' || c = '*'
    || c = '+' || c = '?' || c = '{' || c = '}' || c = '^' || c = '$'

/-- The tokens of a pattern: `none` for a pattern outside the fragment of
literal characters, escaped meta characters, `\s`, `.`, `[^c]`, `*`, `+`, `?`
and `|`. -/
def tokens : QString → Option (List Tok)
  | [] => some []
  | c :: r =>
    if c = '\\' then
      match r with
      | [] => none
      | d :: r' =>
        if d = 's' then (tokens r').map (fun ts => Tok.cls CharClass.space :: ts)
        else if isMetaChar d then (tokens r').map (fun ts => Tok.cls (CharClass.lit d) :: ts)
        else none
    else if c = '.' then (tokens r).map (fun ts => Tok.cls CharClass.anyChar :: ts)
    else if c = '[' then
      match r with
      | h :: x :: e :: r' =>
        if h = '^' ∧ e = ']' ∧ isMetaChar x = false ∧ x ≠ '-' then
          (tokens r').map (fun ts => Tok.cls (CharClass.notChar x) :: ts)
        else none
      | _ => none
    else if c = '*' then (tokens r).map (fun ts => Tok.quant Quant.star :: ts)
    else if c = '+' then (tokens r).map (fun ts => Tok.quant Quant.plus :: ts)
    else if c = '?' then (tokens r).map (fun ts => Tok.quant Quant.opt :: ts)
    else if c = '|' then (tokens r).map (fun ts => Tok.bar :: ts)
    else if isMetaChar c then none
    else (tokens r).map (fun ts => Tok.cls (CharClass.lit c) :: ts)

/-- The token lists between the bars. -/
def splitBars : List Tok → List (List Tok)
  | [] => [[]]
  | Tok.bar :: r => [] :: splitBars r
  | t :: r =>
    match splitBars r with
    | [] => [[t]]
    | a :: as => (t :: a) :: as

/-- The one-character pieces of an alternative with their quantifiers: `none`
for a quantifier with nothing in front. -/
def items : List Tok → Option (List (CharClass × Quant))
  | [] => some []
  | Tok.cls c :: Tok.quant q :: r => (items r).map (fun is => (c, q) :: is)
  | Tok.cls c :: r => (items r).map (fun is => (c, Quant.one) :: is)
  | _ => none

/-- Every element of a list of options, `none` when one is `none`. -/
def allSome {α : Type} : List (Option α) → Option (List α)
  | [] => some []
  | none :: _ => none
  | some a :: r => (allSome r).map (fun as => a :: as)

/-- The alternatives of the pattern of a style name, `(\s|")` in front of the
first one: each a flag that tells whether the group `(\s|")` opens it, and its
pieces. `none` for a pattern outside the fragment. -/
def parsePattern (pattern : QString) : Option (List (Bool × List (CharClass × Quant))) :=
  if ['(', '\\', 's', '|', '"', ')'].isPrefixOf pattern then
    match tokens (pattern.drop 6) with
    | none => none
    | some ts =>
      match allSome ((splitBars ts).map items) with
      | none => none
      | some [] => none
      | some (first :: others) => some ((true, first) :: others.map (fun a => (false, a)))
  else none

/-- The numbers from `k` down to `0`. -/
def downFrom : Nat → List Nat
  | 0 => [0]
  | k + 1 => (k + 1) :: downFrom k

/-- The lengths that a piece with its quantifier can match at the head of a
text, the longest first. -/
def pieceLens (it : CharClass × Quant) (s : QString) : List Nat :=
  let k := (s.takeWhile it.1.test).length
  match it.2 with
  | Quant.one => if 1 ≤ k then [1] else []
  | Quant.opt => if 1 ≤ k then [1, 0] else [0]
  | Quant.star => downFrom k
  | Quant.plus => (downFrom k).filter (fun n => decide (0 < n))

/-- The lengths that a sequence of pieces can match at the head of a text. -/
def seqLens : List (CharClass × Quant) → QString → List Nat
  | [], _ => [0]
  | it :: rest, s =>
    (pieceLens it s).foldr (fun n acc => (seqLens rest (s.drop n)).map (fun m => n + m) ++ acc) []

/-- The greatest number of a list. -/
def longest : List Nat → Option Nat
  | [] => none
  | n :: r =>
    match longest r with
    | none => some n
    | some m => some (max n m)

/-- The longest match of an alternative at the head of a text. -/
def altMatch (alt : Bool × List (CharClass × Quant)) (s : QString) : Option Nat :=
  if alt.1 then
    match s with
    | [] => none
    | c :: t => if isSep c then (longest (seqLens alt.2 t)).map (fun n => n + 1) else none
  else longest (seqLens alt.2 s)

/-- The match of the pattern at the head of a text: the longest match of an
alternative, the first of the alternatives that reach it, with the flag that
tells whether the match went through the group `(\s|")`, so that the capture
is its first character and not empty. -/
def patternMatch : List (Bool × List (CharClass × Quant)) → QString → Option (Nat × Bool)
  | [], _ => none
  | alt :: rest, s =>
    match altMatch alt s, patternMatch rest s with
    | none, r => r
    | some n, none => some (n, alt.1)
    | some n, some (m, g) => if m > n then some (m, g) else some (n, alt.1)

/-- The scan of `QString::replace(reg, "\\1")` for a parsed pattern: with
`skip` characters of the last match still to drop, every match found from left
to right is replaced by its capture, the first character of the match or
nothing, and the search goes on behind it; behind an empty match the search
moves on by one character. -/
def rxGo (alts : List (Bool × List (CharClass × Quant))) : Nat → QString → QString
  | _, [] => []
  | skip + 1, _ :: rest => rxGo alts skip rest
  | 0, c :: rest =>
    match patternMatch alts (c :: rest) with
    | none => c :: rxGo alts 0 rest
    | some (0, _) => c :: rxGo alts 0 rest
    | some (len + 1, true) => c :: rxGo alts len rest
    | some (len + 1, false) => rxGo alts len rest

/-- The call `alteredStyleStr.replace(QRegExp(regPatt.arg(sty)), "\\1")` for
the style names that are run here: `replaceStyle` for a plain CSS identifier,
the scan for the parsed pattern for a name with alternatives. A pattern
outside the fragment is not run: the text is left as it is, which is what the
call does for an invalid pattern. -/
def qRegExpReplace (sty : QString) (s : QString) : QString :=
  if isPlainName sty then replaceStyle sty s
  else
    match parsePattern (stylePattern sty) with
    | some alts => rxGo alts 0 s
    | none => s

/-! ## The clipboard -/

/-- The answers of a `QUrl` to the calls the source makes on it. -/
structure QUrl where
  isLocalFile : Bool
  toLocalFile : QString
  toEncoded : QString
  toStringEncodeSpaces : QString
deriving DecidableEq, Repr

/-- The representations a `QMimeData` carries: `none` and the empty list stand
for a representation that is absent. An image is named by a number. -/
structure QMimeData where
  text : Option QString
  html : Option QString
  urls : List QUrl
  imageData : Option Nat
deriving DecidableEq, Repr

/-- The object `new QMimeData()`. -/
def QMimeData.new : QMimeData :=
  { text := none, html := none, urls := [], imageData := none }

/-- The call `QMimeData::hasText`. -/
def QMimeData.hasText (d : QMimeData) : Bool := d.text.isSome

/-- The call `QMimeData::hasHtml`. -/
def QMimeData.hasHtml (d : QMimeData) : Bool := d.html.isSome

/-- The call `QMimeData::hasUrls`. -/
def QMimeData.hasUrls (d : QMimeData) : Bool := !d.urls.isEmpty

/-- The call `QMimeData::hasImage`. -/
def QMimeData.hasImage (d : QMimeData) : Bool := d.imageData.isSome

/-- The call `QMimeData::setText`. -/
def QMimeData.setText (d : QMimeData) (t : QString) : QMimeData := { d with text := some t }

/-- The call `QMimeData::setHtml`. -/
def QMimeData.setHtml (d : QMimeData) (h : QString) : QMimeData := { d with html := some h }

/-- The call `QMimeData::setUrls`. -/
def QMimeData.setUrls (d : QMimeData) (us : List QUrl) : QMimeData := { d with urls := us }

/-- The call `QMimeData::setImageData`. -/
def QMimeData.setImageData (d : QMimeData) (img : Option Nat) : QMimeData :=
  { d with imageData := img }

/-- The clipboard of the application: whether the application owns it, the
mime data on it and the dynamic properties set on the `QClipboard` object. -/
structure QClipboard where
  ownsClipboard : Bool
  mimeData : QMimeData
  properties : List (QString × Bool)
deriving DecidableEq, Repr

/-- The enumeration `QClipboard::Mode`. -/
inductive Mode where
  | Clipboard
  | Selection
  | FindBuffer
deriving DecidableEq, Repr

/-- The name `c_ClipboardPropertyMark` of the property that marks an altered
image URL. -/
def c_ClipboardPropertyMark : QString := "CopiedImageURLAltered".toList

/-- The call `QObject::setProperty` with a boolean value. -/
def QClipboard.setProperty (cb : QClipboard) (name : QString) (value : Bool) : QClipboard :=
  { cb with properties := (name, value) :: cb.properties.filter (fun p => p.1 != name) }

/-- The call `QObject::property(name).toBool()`: false for a property that was
never set. -/
def QClipboard.property (cb : QClipboard) (name : QString) : Bool :=
  match cb.properties.find? (fun p => p.1 == name) with
  | some p => p.2
  | none => false

/-- Modelled from the spec: `VClipboardUtils::cloneMimeData`, which is not in
the source at hand; the clone carries the representations of the original. -/
def cloneMimeData (d : QMimeData) : QMimeData := d

/-- Modelled from the spec: `VClipboardUtils::setMimeDataToClipboard`, which is
not in the source at hand; the clipboard holds the given mime data afterwards. -/
def setMimeDataToClipboard (cb : QClipboard) (d : QMimeData) : QClipboard :=
  { cb with mimeData := d }

/-- Modelled from the spec: `VClipboardUtils::setImageToClipboard`, which is
not in the source at hand; the clipboard holds the image and nothing else
afterwards. -/
def setImageToClipboard (cb : QClipboard) (img : Nat) : QClipboard :=
  { cb with mimeData := QMimeData.new.setImageData (some img) }

/-! ## The view and what it calls -/

/-- The members of `QWebEnginePage::WebAction` the source names. -/
inductive WebAction where
  | Copy
  | SelectAll
  | Unselect
  | CopyImageToClipboard
  | CopyImageUrlToClipboard
  | ViewSource
  | DownloadImageToDisk
  | DownloadLinkToDisk
deriving DecidableEq, Repr

/-- The members of `VWebView` the handlers read and write, with the answer of
`hasFocus()`, the answer of `url()`, and the page actions that were triggered
through `triggerPageAction`, the last one first. -/
structure VWebView where
  hasFocus : Bool
  url : QString
  m_copyTarget : QString
  m_afterCopyImage : Bool
  m_copyImageUrlActionHooked : Bool
  triggered : List WebAction
deriving DecidableEq, Repr

/-- The parts of the application outside `vwebview.cpp`: the translation `tr`,
`QString::arg`, `VWebUtils::getCopyTargetsName`, `VWebUtils::alterHtmlAsTarget`
(the flag it returns and the HTML it leaves), `pageAction` (a pointer to an
action, `none` for null), the clipboard after the browser engine ran the
"Copy Image URL" action, and `QImage(path)` (`none` for a null image). -/
structure Env where
  tr : QString → QString
  arg : QString → QString → QString
  getCopyTargetsName : List QString
  alterHtmlAsTarget : QString → QString → QString → Bool × QString
  pageAction : WebAction → Option Nat
  engineCopyImageUrl : QClipboard → QClipboard
  loadImage : QString → Option Nat

/-- The call `triggerPageAction`. -/
def VWebView.triggerPageAction (v : VWebView) (a : WebAction) : VWebView :=
  { v with triggered := a :: v.triggered }

/-- The function `VWebView::alterHtmlMimeData`. -/
def alterHtmlMimeData (env : Env) (v : VWebView) (p_clipboard : QClipboard)
    (p_mimeData : QMimeData) (p_copyTarget : QString) : QClipboard :=
  if !p_mimeData.hasHtml || p_mimeData.hasImage || p_copyTarget.isEmpty then
    p_clipboard
  else
    let html := p_mimeData.html.getD []
    let r := env.alterHtmlAsTarget v.url html p_copyTarget
    if !r.1 then
      p_clipboard
    else
      let data := cloneMimeData p_mimeData
      let data := data.setHtml r.2
      setMimeDataToClipboard p_clipboard data

/-- The function `VWebView::removeHtmlFromImageData`. -/
def removeHtmlFromImageData (p_clipboard : QClipboard) (p_mimeData : QMimeData) : QClipboard :=
  if !p_mimeData.hasImage then
    p_clipboard
  else if p_mimeData.hasHtml then
    let data := QMimeData.new
    let data := data.setImageData p_mimeData.imageData
    setMimeDataToClipboard p_clipboard data
  else
    p_clipboard

/-- The function `VWebView::handleClipboardChanged`: the view and the
clipboard after the slot ran. -/
def handleClipboardChanged (env : Env) (v : VWebView) (clipboard : QClipboard)
    (p_mode : Mode) : VWebView × QClipboard :=
  if !v.hasFocus || p_mode != Mode.Clipboard then
    (v, clipboard)
  else if !clipboard.ownsClipboard then
    (v, clipboard)
  else
    let mimeData := clipboard.mimeData
    let copyTarget := v.m_copyTarget
    let v := { v with m_copyTarget := [] }
    if v.m_afterCopyImage then
      let v := { v with m_afterCopyImage := false }
      (v, removeHtmlFromImageData clipboard mimeData)
    else
      (v, alterHtmlMimeData env v clipboard mimeData copyTarget)

/-- The function `VWebView::handleCopyImageUrlAction`. -/
def handleCopyImageUrlAction (clipboard : QClipboard) : QClipboard :=
  let mimeData := clipboard.mimeData
  let clipboard := clipboard.setProperty c_ClipboardPropertyMark false
  if clipboard.ownsClipboard && mimeData.hasText && mimeData.hasUrls then
    let text := mimeData.text.getD []
    let urls := mimeData.urls
    match urls with
    | [url] =>
      if url.isLocalFile && url.toEncoded == text then
        let spaceOnlyText := url.toStringEncodeSpaces
        if spaceOnlyText != text then
          let data := QMimeData.new
          let data := data.setUrls urls
          let data := data.setText spaceOnlyText
          let clipboard := setMimeDataToClipboard clipboard data
          clipboard.setProperty c_ClipboardPropertyMark true
        else clipboard
      else clipboard
    | _ => clipboard
  else clipboard

/-- The function `VWebView::copyImage`; `win` tells whether `Q_OS_WIN` is
defined. Triggering the "Copy Image URL" action lets the browser engine fill
the clipboard and then runs the slot `handleCopyImageUrlAction` when it was
connected. -/
def copyImage (env : Env) (win : Bool) (v : VWebView) (clipboard : QClipboard) :
    VWebView × QClipboard :=
  let fallBack (v : VWebView) (clipboard : QClipboard) : VWebView × QClipboard :=
    let v := { v with m_afterCopyImage := true }
    (v.triggerPageAction WebAction.CopyImageToClipboard, clipboard)
  if win then
    let clipboard := env.engineCopyImageUrl clipboard
    let clipboard :=
      if v.m_copyImageUrlActionHooked then handleCopyImageUrlAction clipboard else clipboard
    if clipboard.property c_ClipboardPropertyMark then
      let mimeData := clipboard.mimeData
      let imgPath : QString :=
        if mimeData.hasUrls then
          match mimeData.urls with
          | url :: _ => if url.isLocalFile then url.toLocalFile else []
          | [] => []
        else []
      if !imgPath.isEmpty then
        match env.loadImage imgPath with
        | some img => ({ v with m_afterCopyImage := false }, setImageToClipboard clipboard img)
        | none => fallBack v clipboard
      else fallBack v clipboard
    else fallBack v clipboard
  else fallBack v clipboard

/-! ## Actions and menus -/

/-- The state of a `QAction` the source reads and writes; `menu` is the
submenu the action stands for, as `QAction::menu()`. -/
structure QAction where
  text : QString
  data : QString
  toolTip : QString
  visible : Bool
  separator : Bool
  menu : Option Nat
deriving DecidableEq, Repr

/-- The state of a `QMenu`: its actions, in the order of `QWidget::actions()`,
as pointers, and the pointer to its own `menuAction()`. -/
structure QMenu where
  title : QString
  toolTipsVisible : Bool
  actions : List Nat
  menuAction : Nat
deriving DecidableEq, Repr

/-- The objects on the heap: a pointer to an action or to a menu is its index
in the list. -/
structure Gui where
  actions : List QAction
  menus : List QMenu
deriving DecidableEq, Repr

/-- The list with the element at an index replaced by its image; the same list
for an index out of range. -/
def modifyAt {α : Type} (f : α → α) : Nat → List α → List α
  | _, [] => []
  | 0, a :: l => f a :: l
  | n + 1, a :: l => a :: modifyAt f n l

/-- The expression `new QAction(text, parent)`: the heap with the action and
the pointer to it. -/
def Gui.newAction (g : Gui) (text : QString) : Gui × Nat :=
  ({ g with actions := g.actions ++
      [{ text := text, data := [], toolTip := [], visible := true, separator := false,
         menu := none }] },
   g.actions.length)

/-- The expression `new QMenu(title, parent)`: the heap with the menu and its
`menuAction()`, and the pointer to the menu. -/
def Gui.newMenu (g : Gui) (title : QString) : Gui × Nat :=
  ({ actions := g.actions ++
      [{ text := title, data := [], toolTip := [], visible := true, separator := false,
         menu := some g.menus.length }],
     menus := g.menus ++
      [{ title := title, toolTipsVisible := false, actions := [],
         menuAction := g.actions.length }] },
   g.menus.length)

/-- The call `QAction::text` through a pointer. -/
def Gui.actionText (g : Gui) (a : Nat) : QString :=
  match g.actions[a]? with
  | some act => act.text
  | none => []

/-- The call `QWidget::actions` of a menu. -/
def Gui.menuActions (g : Gui) (m : Nat) : List Nat :=
  match g.menus[m]? with
  | some menu => menu.actions
  | none => []

/-- The call `QAction::setData`. -/
def Gui.setData (g : Gui) (a : Nat) (d : QString) : Gui :=
  { g with actions := modifyAt (fun act => { act with data := d }) a g.actions }

/-- The call `QAction::setToolTip`. -/
def Gui.setToolTip (g : Gui) (a : Nat) (t : QString) : Gui :=
  { g with actions := modifyAt (fun act => { act with toolTip := t }) a g.actions }

/-- The call `QAction::setVisible`. -/
def Gui.setVisible (g : Gui) (a : Nat) (b : Bool) : Gui :=
  { g with actions := modifyAt (fun act => { act with visible := b }) a g.actions }

/-- The call `QMenu::setToolTipsVisible`. -/
def Gui.setToolTipsVisible (g : Gui) (m : Nat) (b : Bool) : Gui :=
  { g with menus := modifyAt (fun menu => { menu with toolTipsVisible := b }) m g.menus }

/-- The call `QWidget::removeAction`: every occurrence of the pointer leaves
the list of actions. -/
def Gui.removeAction (g : Gui) (m : Nat) (a : Option Nat) : Gui :=
  match a with
  | none => g
  | some a =>
    let remove : QMenu → QMenu :=
      fun menu => { menu with actions := menu.actions.filter (fun x => x != a) }
    { g with menus := modifyAt remove m g.menus }

/-- The list with an element put in front of the first occurrence of `before`,
at the end when there is none. -/
def insertBefore (before : Option Nat) (a : Nat) : List Nat → List Nat
  | [] => [a]
  | x :: l => if some x = before then a :: x :: l else x :: insertBefore before a l

/-- The call `QWidget::insertAction(before, action)`: nothing for a null
action; an action the widget has already is removed first; the action goes in
front of `before`, to the end when `before` is null or not an action of the
widget. -/
def Gui.insertAction (g : Gui) (m : Nat) (before : Option Nat) (a : Option Nat) : Gui :=
  match a with
  | none => g
  | some a =>
    let g := if (g.menuActions m).contains a then g.removeAction m (some a) else g
    let insert : QMenu → QMenu :=
      fun menu => { menu with actions := insertBefore before a menu.actions }
    { g with menus := modifyAt insert m g.menus }

/-- The call `QWidget::addAction`. -/
def Gui.addAction (g : Gui) (m : Nat) (a : Nat) : Gui :=
  g.insertAction m none (some a)

/-- The pointer `menu->menuAction()`, null for a dangling menu. -/
def Gui.menuActionOf (g : Gui) (sub : Nat) : Option Nat :=
  match g.menus[sub]? with
  | some menu => some menu.menuAction
  | none => none

/-- The call `QMenu::insertMenu(before, menu)`: the heap and the action it
returns. -/
def Gui.insertMenu (g : Gui) (m : Nat) (before : Option Nat) (sub : Nat) : Gui × Option Nat :=
  (g.insertAction m before (g.menuActionOf sub), g.menuActionOf sub)

/-- The call `QMenu::addMenu(menu)`. -/
def Gui.addMenu (g : Gui) (m : Nat) (sub : Nat) : Gui :=
  g.insertAction m none (g.menuActionOf sub)

/-- The call `QMenu::addSeparator()`. -/
def Gui.addSeparator (g : Gui) (m : Nat) : Gui :=
  let g' : Gui := { g with actions := g.actions ++
      [{ text := [], data := [], toolTip := [], visible := true, separator := true,
         menu := none }] }
  g'.addAction m g.actions.length

/-- The function `VWebView::hideUnusedActions`. -/
def hideUnusedActions (env : Env) (g : Gui) (p_menu : Nat) : Gui :=
  let actionNames : List QString :=
    [env.tr "&Back".toList, env.tr "&Forward".toList, env.tr "&Reload".toList]
  let actions := g.menuActions p_menu
  let unusedActions : List (Option Nat) :=
    (actions.filter (fun it => actionNames.contains (g.actionText it))).map some
  let unusedActions := unusedActions ++ [env.pageAction WebAction.ViewSource]
  let unusedActions := unusedActions ++ [env.pageAction WebAction.DownloadImageToDisk]
  let unusedActions := unusedActions ++ [env.pageAction WebAction.DownloadLinkToDisk]
  unusedActions.foldl
    (fun g it =>
      match it with
      | some a => g.setVisible a false
      | none => g)
    g

/-- The action that `initCopyAsMenu` and `initCopyAllAsMenu` make for a target:
the target is its text and its data, the tool tip names the target. -/
def targetAction (env : Env) (toolTip : QString) (target : QString) : QAction :=
  { text := target, data := target, toolTip := env.arg (env.tr toolTip) target,
    visible := true, separator := false, menu := none }

/-- The `for` loop of `initCopyAsMenu` and `initCopyAllAsMenu` over the
targets: an action per target is made, gets its data and tool tip and is added
to the submenu. -/
def addTargetActions (env : Env) (toolTip : QString) (subMenu : Nat) :
    List QString → Gui → Gui
  | [], g => g
  | target :: rest, g =>
    let (g, act) := g.newAction target
    let g := g.setData act target
    let g := g.setToolTip act (env.arg (env.tr toolTip) target)
    let g := g.addAction subMenu act
    addTargetActions env toolTip subMenu rest g

/-- The function `VWebView::initCopyAsMenu`. -/
def initCopyAsMenu (env : Env) (g : Gui) (p_after : Option Nat) (p_menu : Nat) : Gui :=
  let targets := env.getCopyTargetsName
  if targets.isEmpty then g
  else
    let (g, subMenu) := g.newMenu (env.tr "Copy As".toList)
    let g := g.setToolTipsVisible subMenu true
    let g := addTargetActions env
      "Copy selected content using rules specified by target %1".toList subMenu targets g
    let (g, menuAct) := g.insertMenu p_menu p_after subMenu
    let g := g.removeAction p_menu p_after
    g.insertAction p_menu menuAct p_after

/-- The function `VWebView::initCopyAllAsMenu`. -/
def initCopyAllAsMenu (env : Env) (g : Gui) (p_menu : Nat) : Gui :=
  let targets := env.getCopyTargetsName
  if targets.isEmpty then g
  else
    let (g, subMenu) := g.newMenu (env.tr "Copy All As".toList)
    let g := g.setToolTipsVisible subMenu true
    let g := addTargetActions env
      "Copy all content using rules specified by target %1".toList subMenu targets g
    let g := g.addSeparator p_menu
    g.addMenu p_menu subMenu

/-- The function `VWebView::handleCopyAsAction`; the argument is the action,
`none` for a null pointer. -/
def handleCopyAsAction (v : VWebView) (p_act : Option QAction) : VWebView :=
  match p_act with
  | none => v
  | some act =>
    let v := { v with m_copyTarget := act.data }
    v.triggerPageAction WebAction.Copy

/-- The function `VWebView::handleCopyAllAsAction`. -/
def handleCopyAllAsAction (v : VWebView) (p_act : Option QAction) : VWebView :=
  match p_act with
  | none => v
  | some act =>
    let v := v.triggerPageAction WebAction.SelectAll
    let v := { v with m_copyTarget := act.data }
    let v := v.triggerPageAction WebAction.Copy
    v.triggerPageAction WebAction.Unselect

/-! ## Sample data -/

/-- An application with the copy targets `Word` and `OneNote`, no translation,
an `alterHtmlAsTarget` that appends the target to the HTML, and no
`DownloadImageToDisk` action. -/
def sampleEnv : Env :=
  { tr := fun s => s
    arg := fun s a => s ++ a
    getCopyTargetsName := ["Word".toList, "OneNote".toList]
    alterHtmlAsTarget := fun _ html target => (true, html ++ target)
    pageAction := fun a =>
      match a with
      | WebAction.Copy => some 1
      | WebAction.ViewSource => some 3
      | WebAction.DownloadLinkToDisk => some 4
      | _ => none
    engineCopyImageUrl := fun cb => cb
    loadImage := fun _ => none }

/-- A view that has the focus and waits for the copy with the target `Word`. -/
def sampleView : VWebView :=
  { hasFocus := true, url := "file:///note.md".toList, m_copyTarget := "Word".toList,
    m_afterCopyImage := false, m_copyImageUrlActionHooked := false, triggered := [] }

/-- A clipboard the application owns, with a text and an HTML representation. -/
def sampleClipboard : QClipboard :=
  { ownsClipboard := true,
    mimeData := { text := some "hi".toList, html := some "<b>hi</b>".toList, urls := [],
                  imageData := none },
    properties := [] }

/-- A clipboard the application owns, with a copied image that comes with HTML. -/
def sampleImageClipboard : QClipboard :=
  { ownsClipboard := true,
    mimeData := { text := none, html := some "<img src=\"a.png\">".toList, urls := [],
                  imageData := some 7 },
    properties := [] }

/-- The URL of a local file whose name has a blank and a non-ASCII letter. -/
def sampleUrl : QUrl :=
  { isLocalFile := true, toLocalFile := "/n/a é.png".toList,
    toEncoded := "file:///n/a%20%C3%A9.png".toList,
    toStringEncodeSpaces := "file:///n/a%20é.png".toList }

/-- A clipboard as the "Copy Image URL" action leaves it: the encoded URL as
the text, and the URL. -/
def sampleUrlClipboard : QClipboard :=
  { ownsClipboard := true,
    mimeData := { text := some "file:///n/a%20%C3%A9.png".toList, html := none,
                  urls := [sampleUrl], imageData := none },
    properties := [] }

/-- A heap with the actions Back, Copy, Paste, View Source and Save Link, and
one menu that shows the first three. -/
def sampleGui : Gui :=
  { actions :=
      [{ text := "&Back".toList, data := [], toolTip := [], visible := true, separator := false,
         menu := none },
       { text := "&Copy".toList, data := [], toolTip := [], visible := true, separator := false,
         menu := none },
       { text := "&Paste".toList, data := [], toolTip := [], visible := true,
         separator := false, menu := none },
       { text := "View Source".toList, data := [], toolTip := [], visible := true,
         separator := false, menu := none },
       { text := "Save Link".toList, data := [], toolTip := [], visible := true,
         separator := false, menu := none }],
    menus := [{ title := [], toolTipsVisible := true, actions := [0, 1, 2], menuAction := 9 }] }

/-! ## Splitting a text at the first character that fails a test -/

theorem takeWhile_split (p : Char → Bool) (l : QString)
    (h : (l.takeWhile p).length < l.length) :
    ∃ x w, l = l.takeWhile p ++ x :: w ∧ p x = false := by
  induction l with
  | nil => simp at h
  | cons a t ih =>
    by_cases ha : p a = true
    · simp only [List.takeWhile_cons, ha, if_true, List.length_cons, Nat.add_lt_add_iff_right] at h
      obtain ⟨x, w, hw, hx⟩ := ih h
      refine ⟨x, w, ?_, hx⟩
      simp only [List.takeWhile_cons, ha, if_true, List.cons_append]
      rw [← hw]
    · refine ⟨a, t, ?_, by simpa using ha⟩
      simp [List.takeWhile_cons, ha]

theorem takeWhile_of_split (p : Char → Bool) (v w : QString) (x : Char)
    (hv : ∀ y ∈ v, p y = true) (hx : p x = false) :
    (v ++ x :: w).takeWhile p = v := by
  induction v with
  | nil => simp [List.takeWhile_cons, hx]
  | cons a t ih =>
    have ha : p a = true := hv a (List.mem_cons_self _ _)
    simp only [List.cons_append, List.takeWhile_cons, ha, if_true]
    rw [ih (fun y hy => hv y (List.mem_cons_of_mem _ hy))]

theorem ne_char_true_iff (a x : Char) : ((x != a) = true) ↔ x ≠ a := by
  simp

/-! ## What a match of the two patterns looks like -/

theorem styleRegMatch_some (sty s : QString) (len : Nat) :
    styleRegMatch sty s = some len ↔
      ∃ c v w, s = c :: (sty ++ ':' :: (v ++ ';' :: w)) ∧ isSep c = true ∧ v ≠ [] ∧ ';' ∉ v
        ∧ len = sty.length + v.length + 3 := by
  constructor
  · intro h
    cases s with
    | nil => simp [styleRegMatch] at h
    | cons c t =>
      simp only [styleRegMatch] at h
      split at h
      · rename_i hc
        obtain ⟨hsep, hpre, hpos, hlt⟩ := hc
        rw [List.isPrefixOf_iff_prefix] at hpre
        obtain ⟨u, hu⟩ := hpre
        have hdrop : t.drop (sty.length + 1) = u := by
          rw [← hu]
          have : (sty ++ [':']).length = sty.length + 1 := by simp
          rw [← this, List.drop_left]
        rw [hdrop] at hpos hlt h
        obtain ⟨x, w, hw, hx⟩ := takeWhile_split _ u hlt
        have hx' : x = ';' := by simpa using hx
        subst hx'
        refine ⟨c, u.takeWhile (fun x => x != ';'), w, ?_, hsep, ?_, ?_, ?_⟩
        · rw [← hw, ← hu]; simp
        · intro h0; rw [h0] at hpos; simp at hpos
        · intro hmem
          have := List.mem_takeWhile_imp hmem
          simp at this
        · simpa using h.symm
      · simp at h
  · rintro ⟨c, v, w, rfl, hsep, hv, hnot, rfl⟩
    have hdrop : (sty ++ ':' :: (v ++ ';' :: w)).drop (sty.length + 1) = v ++ ';' :: w := by
      have : sty ++ ':' :: (v ++ ';' :: w) = (sty ++ [':']) ++ (v ++ ';' :: w) := by simp
      rw [this]
      have hl : (sty ++ [':']).length = sty.length + 1 := by simp
      rw [← hl, List.drop_left]
    have htw : (v ++ ';' :: w).takeWhile (fun x => x != ';') = v := by
      apply takeWhile_of_split
      · intro y hy
        have : y ≠ ';' := fun h => hnot (h ▸ hy)
        simpa using this
      · simp
    have hpre : (sty ++ [':']).isPrefixOf (sty ++ ':' :: (v ++ ';' :: w)) = true := by
      rw [List.isPrefixOf_iff_prefix]
      exact ⟨v ++ ';' :: w, by simp⟩
    simp only [styleRegMatch, hdrop, htw]
    have hvl : 0 < v.length := List.length_pos.mpr hv
    rw [if_pos]
    refine ⟨hsep, hpre, hvl, ?_⟩
    simp

theorem tagRegMatch_some (s : QString) (len : Nat) :
    tagRegMatch s = some len ↔
      ∃ body post, s = '<' :: (body ++ '>' :: post) ∧ '>' ∉ body ∧ tagBodyMatches body = true
        ∧ len = body.length + 2 := by
  constructor
  · intro h
    cases s with
    | nil => simp [tagRegMatch] at h
    | cons c t =>
      simp only [tagRegMatch] at h
      split at h
      · rename_i hc
        obtain ⟨hc, hlt, hbody⟩ := hc
        obtain ⟨x, w, hw, hx⟩ := takeWhile_split _ t hlt
        have hx' : x = '>' := by simpa using hx
        subst hx' hc
        refine ⟨t.takeWhile (fun x => x != '>'), w, ?_, ?_, hbody, ?_⟩
        · rw [← hw]
        · intro hmem
          have := List.mem_takeWhile_imp hmem
          simp at this
        · simpa using h.symm
      · simp at h
  · rintro ⟨body, post, rfl, hnot, hbody, rfl⟩
    have htw : (body ++ '>' :: post).takeWhile (fun x => x != '>') = body := by
      apply takeWhile_of_split
      · intro y hy
        have : y ≠ '>' := fun h => hnot (h ▸ hy)
        simpa using this
      · simp
    simp only [tagRegMatch, htw]
    rw [if_pos]
    refine ⟨trivial, ?_, hbody⟩
    simp

theorem styleAttrIn_shape : ∀ r : QString,
    styleAttrIn r = true ↔ ∃ x w y, r = x ++ w :: (styleEq ++ y) ∧ isSpace w = true
  | [] => by
    simp only [styleAttrIn, Bool.false_eq_true, false_iff]
    rintro ⟨x, w, y, h, _⟩
    have := congrArg List.length h
    simp only [List.length_nil, List.length_append, List.length_cons] at this
    omega
  | c :: rest => by
    simp only [styleAttrIn, styleAttrHere, Bool.or_eq_true, Bool.and_eq_true]
    constructor
    · rintro (⟨hc, hp⟩ | h)
      · rw [List.isPrefixOf_iff_prefix] at hp
        obtain ⟨y, hy⟩ := hp
        exact ⟨[], c, y, by rw [← hy]; rfl, hc⟩
      · obtain ⟨x, w, y, hr, hw⟩ := (styleAttrIn_shape rest).mp h
        exact ⟨c :: x, w, y, by rw [hr]; rfl, hw⟩
    · rintro ⟨x, w, y, h, hw⟩
      cases x with
      | nil =>
        obtain ⟨e1, e2⟩ := List.cons.inj h
        left
        refine ⟨by rw [e1]; exact hw, ?_⟩
        rw [List.isPrefixOf_iff_prefix, e2]
        exact List.prefix_append _ _
      | cons a x' =>
        obtain ⟨_, e2⟩ := List.cons.inj h
        exact Or.inr ((styleAttrIn_shape rest).mpr ⟨x', w, y, e2, hw⟩)

theorem tagRegMatch_shape (s : QString) (len : Nat) :
    tagRegMatch s = some len ↔
      ∃ x w y post, s = '<' :: (x ++ w :: (styleEq ++ y) ++ '>' :: post)
        ∧ x ≠ [] ∧ '>' ∉ x ∧ isSpace w = true ∧ '>' ∉ y
        ∧ len = x.length + y.length + 9 := by
  rw [tagRegMatch_some]
  constructor
  · rintro ⟨body, post, hs, hnot, hbody, hlen⟩
    cases body with
    | nil => simp [tagBodyMatches] at hbody
    | cons c r =>
      simp only [tagBodyMatches] at hbody
      obtain ⟨x, w, y, hr, hw⟩ := (styleAttrIn_shape r).mp hbody
      refine ⟨c :: x, w, y, post, by rw [hs, hr]; rfl, List.cons_ne_nil _ _, ?_, hw, ?_, ?_⟩
      · intro hm
        apply hnot
        rw [hr]
        rcases List.mem_cons.mp hm with e | e
        · rw [e]; exact List.mem_cons_self _ _
        · exact List.mem_cons_of_mem _ (List.mem_append_left _ e)
      · intro hm
        apply hnot
        rw [hr]
        exact List.mem_cons_of_mem _ (List.mem_append_right _
          (List.mem_cons_of_mem _ (List.mem_append_right _ hm)))
      · rw [hlen, hr]
        simp only [List.length_cons, List.length_append, styleEq, List.length_nil]
        omega
  · rintro ⟨x, w, y, post, hs, hx, hnx, hw, hny, hlen⟩
    refine ⟨x ++ w :: (styleEq ++ y), post, hs, ?_, ?_, ?_⟩
    · intro hm
      rcases List.mem_append.mp hm with e | e
      · exact hnx e
      · rcases List.mem_cons.mp e with e | e
        · rw [← e] at hw
          exact absurd hw (by decide)
        · rcases List.mem_append.mp e with e | e
          · exact absurd e (by decide)
          · exact hny e
    · cases x with
      | nil => exact absurd rfl hx
      | cons c x' =>
        simp only [List.cons_append, tagBodyMatches]
        exact (styleAttrIn_shape _).mpr ⟨x', w, y, rfl, hw⟩
    · rw [hlen]
      simp only [List.length_cons, List.length_append, styleEq, List.length_nil]
      omega

/-! ## The replacement of the declarations of one style -/

theorem replaceGo_nil (sty : QString) (k : Nat) : replaceGo sty k [] = [] := by
  cases k <;> rfl

theorem replaceGo_skip (sty : QString) (k : Nat) (c : Char) (rest : QString) :
    replaceGo sty (k + 1) (c :: rest) = replaceGo sty k rest := rfl

theorem replaceGo_zero (sty : QString) (c : Char) (rest : QString) :
    replaceGo sty 0 (c :: rest) =
      match styleRegMatch sty (c :: rest) with
      | some len => c :: replaceGo sty (len - 1) rest
      | none => c :: replaceGo sty 0 rest := rfl

theorem replaceGo_head (sty : QString) (c : Char) (rest : QString) :
    ∃ k, replaceGo sty 0 (c :: rest) = c :: replaceGo sty k rest := by
  rw [replaceGo_zero]
  split
  · exact ⟨_, rfl⟩
  · exact ⟨0, rfl⟩

theorem replaceGo_sublist (sty : QString) :
    ∀ (s : QString) (k : Nat), (replaceGo sty k s).Sublist s
  | [], k => by rw [replaceGo_nil]
  | _ :: rest, k + 1 => by
    rw [replaceGo_skip]
    exact (replaceGo_sublist sty rest k).cons _
  | c :: rest, 0 => by
    obtain ⟨k, hk⟩ := replaceGo_head sty c rest
    rw [hk]
    exact (replaceGo_sublist sty rest k).cons₂ _

theorem replaceGo_drop (sty : QString) :
    ∀ (s : QString) (k : Nat), replaceGo sty k s = replaceGo sty 0 (s.drop k)
  | [], k => by rw [replaceGo_nil, List.drop_nil, replaceGo_nil]
  | _ :: rest, k + 1 => by
    rw [replaceGo_skip, List.drop_succ_cons]
    exact replaceGo_drop sty rest k
  | _ :: _, 0 => by rw [List.drop_zero]

theorem styleRegMatch_nonsep (sty : QString) (c : Char) (rest : QString)
    (h : isSep c = false) : styleRegMatch sty (c :: rest) = none := by
  simp [styleRegMatch, h]

theorem replaceGo_cons_nonsep (sty : QString) (c : Char) (rest : QString)
    (h : isSep c = false) : replaceGo sty 0 (c :: rest) = c :: replaceGo sty 0 rest := by
  rw [replaceGo_zero, styleRegMatch_nonsep sty c rest h]

theorem styleRegMatch_last (sty t : QString) (c e : Char) (len : Nat) (he : e ≠ ';')
    (h : styleRegMatch sty (c :: (t ++ [e])) = some len) : len - 1 ≤ t.length := by
  obtain ⟨c', v, w, hs, _, _, _, hl⟩ := (styleRegMatch_some sty _ len).mp h
  have ht : t ++ [e] = sty ++ ':' :: (v ++ ';' :: w) := (List.cons.inj hs).2
  have hlen2 : (t ++ [e]).length = (sty ++ ':' :: (v ++ ';' :: w)).length := by rw [ht]
  rcases List.eq_nil_or_concat w with hw | ⟨w', x, hw⟩
  · subst hw
    exfalso
    have h1 : (t ++ [e]).getLast? = some e := List.getLast?_concat t
    rw [ht] at h1
    have h2 : (sty ++ ':' :: (v ++ [';'])).getLast? = some ';' := by
      have : sty ++ ':' :: (v ++ [';']) = (sty ++ ':' :: v) ++ [';'] := by simp
      rw [this]; exact List.getLast?_concat _
    rw [h2] at h1
    exact he (Option.some.inj h1).symm
  · subst hw
    simp only [List.length_append, List.length_cons, List.length_nil,
      List.length_concat] at hlen2
    omega

theorem replaceGo_keeps_last (sty : QString) (e : Char) (he : e ≠ ';') :
    ∀ (s : QString) (k : Nat), k ≤ s.length →
      ∃ s', replaceGo sty k (s ++ [e]) = s' ++ [e] ∧ s'.Sublist s
  | [], k, hk => by
    have hk0 : k = 0 := by simpa using hk
    subst hk0
    refine ⟨[], ?_, List.Sublist.refl _⟩
    have : styleRegMatch sty [e] = none := by simp [styleRegMatch]
    rw [List.nil_append, replaceGo_zero, this, replaceGo_nil]
  | c :: t, k + 1, hk => by
    have hk' : k ≤ t.length := by simpa using hk
    obtain ⟨s', h1, h2⟩ := replaceGo_keeps_last sty e he t k hk'
    refine ⟨s', ?_, h2.cons _⟩
    rw [List.cons_append, replaceGo_skip, h1]
  | c :: t, 0, _ => by
    rw [List.cons_append, replaceGo_zero]
    split
    · rename_i len hlen
      have hle := styleRegMatch_last sty t c e len he hlen
      obtain ⟨s', h1, h2⟩ := replaceGo_keeps_last sty e he t (len - 1) hle
      exact ⟨c :: s', by rw [h1, List.cons_append], h2.cons₂ _⟩
    · obtain ⟨s', h1, h2⟩ := replaceGo_keeps_last sty e he t 0 (Nat.zero_le _)
      exact ⟨c :: s', by rw [h1, List.cons_append], h2.cons₂ _⟩

theorem replaceStyle_sublist (sty s : QString) : (replaceStyle sty s).Sublist s :=
  replaceGo_sublist sty s 0

theorem alterTag_sublist (styles : List QString) :
    ∀ s : QString, (alterTag styles s).Sublist s := by
  induction styles with
  | nil => intro s; exact List.Sublist.refl _
  | cons sty rest ih =>
    intro s
    exact (ih (replaceStyle sty s)).trans (replaceStyle_sublist sty s)

theorem isSep_lt : isSep '<' = false := by decide

theorem replaceStyle_tag (sty body : QString) :
    ∃ body', replaceStyle sty ('<' :: (body ++ ['>'])) = '<' :: (body' ++ ['>'])
      ∧ body'.Sublist body := by
  obtain ⟨s', h1, h2⟩ := replaceGo_keeps_last sty '>' (by decide) body 0 (Nat.zero_le _)
  refine ⟨s', ?_, h2⟩
  rw [replaceStyle, replaceGo_cons_nonsep sty '<' _ isSep_lt, h1]

theorem alterTag_tag (styles : List QString) :
    ∀ body : QString, ∃ body', alterTag styles ('<' :: (body ++ ['>'])) = '<' :: (body' ++ ['>'])
      ∧ body'.Sublist body := by
  induction styles with
  | nil => intro body; exact ⟨body, rfl, List.Sublist.refl _⟩
  | cons sty rest ih =>
    intro body
    obtain ⟨b1, h1, hs1⟩ := replaceStyle_tag sty body
    obtain ⟨b2, h2, hs2⟩ := ih b1
    refine ⟨b2, ?_, hs2.trans hs1⟩
    simp only [alterTag, List.foldl_cons] at h2 ⊢
    rw [h1, h2]

/-! ## The search for the next tag and one run of the loop body -/

theorem searchTag_some : ∀ (s : QString) (i idx len : Nat), searchTag s i = some (idx, len) →
    ∃ pre rest, s = pre ++ rest ∧ idx = i + pre.length ∧ tagRegMatch rest = some len
      ∧ ∀ p q, pre = p ++ q → q ≠ [] → tagRegMatch (q ++ rest) = none
  | [], i, idx, len, h => by simp [searchTag] at h
  | c :: t, i, idx, len, h => by
    rw [searchTag] at h
    cases hm : tagRegMatch (c :: t) with
    | some l =>
      rw [hm] at h
      simp only [Option.some.injEq, Prod.mk.injEq] at h
      obtain ⟨rfl, rfl⟩ := h
      refine ⟨[], c :: t, rfl, rfl, hm, ?_⟩
      intro p q hpq hq
      have := List.append_eq_nil.mp hpq.symm
      exact absurd this.2 hq
    | none =>
      rw [hm] at h
      obtain ⟨pre, rest, hs, hidx, hmatch, hleft⟩ := searchTag_some t (i + 1) idx len h
      refine ⟨c :: pre, rest, by rw [hs]; rfl, by simp only [List.length_cons]; omega, hmatch, ?_⟩
      intro p q hpq hq
      cases p with
      | nil =>
        rw [List.nil_append] at hpq
        subst hpq
        rw [List.cons_append, ← hs]
        exact hm
      | cons a p' =>
        rw [List.cons_append] at hpq
        exact hleft p' q (List.cons.inj hpq).2 hq

theorem searchTag_none : ∀ (s : QString) (i : Nat), searchTag s i = none →
    ∀ p q, s = p ++ q → tagRegMatch q = none
  | [], _, _, p, q, hpq => by
    have := List.append_eq_nil.mp hpq.symm
    rw [this.2]
    rfl
  | c :: t, i, h, p, q, hpq => by
    rw [searchTag] at h
    cases hm : tagRegMatch (c :: t) with
    | some l => rw [hm] at h; simp at h
    | none =>
      rw [hm] at h
      cases p with
      | nil =>
        rw [List.nil_append] at hpq
        rw [← hpq]
        exact hm
      | cons a p' =>
        rw [List.cons_append] at hpq
        exact searchTag_none t (i + 1) h p' q (List.cons.inj hpq).2

theorem alterTag_length_tag (styles : List QString) (body : QString) :
    2 ≤ (alterTag styles ('<' :: (body ++ ['>']))).length
      ∧ (alterTag styles ('<' :: (body ++ ['>']))).length ≤ body.length + 2 := by
  obtain ⟨b, hb, hsub⟩ := alterTag_tag styles body
  rw [hb]
  have := hsub.length_le
  simp only [List.length_cons, List.length_append, List.length_nil]
  omega

theorem loopBody_some (styles : List QString) (st st' : LoopState)
    (h : loopBody styles st = some st') :
    ∃ D pre body post,
      st.html = D ++ (pre ++ ('<' :: (body ++ '>' :: post))) ∧ D.length = st.pos ∧
      '>' ∉ body ∧ tagBodyMatches body = true ∧
      (∀ p q, pre = p ++ q → q ≠ [] →
        tagRegMatch (q ++ '<' :: (body ++ '>' :: post)) = none) ∧
      indexOfTag st.html st.pos = some (st.pos + pre.length, body.length + 2) ∧
      st'.html = D ++ (pre ++ (alterTag styles ('<' :: (body ++ ['>'])) ++ post)) ∧
      st'.pos = st.pos + pre.length + (alterTag styles ('<' :: (body ++ ['>']))).length ∧
      st'.changed
        = (st.changed || decide ('<' :: (body ++ ['>']) ≠ alterTag styles ('<' :: (body ++ ['>'])))) := by
  unfold loopBody at h
  cases hidx : indexOfTag st.html st.pos with
  | none => rw [hidx] at h; simp at h
  | some r =>
    obtain ⟨idx, mlen⟩ := r
    rw [hidx] at h
    obtain ⟨pre, rest, hdrop, hi, hmatch, hleft⟩ := searchTag_some _ _ _ _ hidx
    obtain ⟨body, post, hrest, hnot, hbody, hmlen⟩ := (tagRegMatch_some rest mlen).mp hmatch
    subst hrest
    have hpos : st.pos ≤ st.html.length := by
      by_contra hc
      have : st.html.drop st.pos = [] := List.drop_eq_nil_of_le (by omega)
      rw [this] at hdrop
      have := List.append_eq_nil.mp hdrop.symm
      simp at this
    have hD : (st.html.take st.pos).length = st.pos := by
      rw [List.length_take]; omega
    have hhtml : st.html = st.html.take st.pos ++ (pre ++ ('<' :: (body ++ '>' :: post))) := by
      rw [← hdrop, List.take_append_drop]
    have htag : '<' :: (body ++ '>' :: post) = ('<' :: (body ++ ['>'])) ++ post := by simp
    have htaglen : ('<' :: (body ++ ['>'])).length = mlen := by
      rw [hmlen]; simp
    have hdropidx : st.html.drop idx = ('<' :: (body ++ ['>'])) ++ post := by
      rw [hhtml, ← List.append_assoc, htag]
      apply List.drop_left'
      rw [List.length_append, hD, hi]
    have htake : (st.html.drop idx).take mlen = '<' :: (body ++ ['>']) := by
      rw [hdropidx]
      exact List.take_left' htaglen
    have htakeidx : st.html.take idx = st.html.take st.pos ++ pre := by
      conv_lhs => rw [hhtml, ← List.append_assoc]
      apply List.take_left'
      rw [List.length_append, hD, hi]
    have hdrop2 : st.html.drop (idx + mlen) = post := by
      conv_lhs => rw [hhtml, htag, ← List.append_assoc, ← List.append_assoc]
      apply List.drop_left'
      rw [List.length_append, List.length_append, hD, hi, htaglen]
    refine ⟨st.html.take st.pos, pre, body, post, hhtml, hD, hnot, hbody, hleft, ?_, ?_⟩
    · rw [hi, hmlen]
    · simp only [htake, hdrop2, htakeidx] at h
      split at h
      · rename_i hne
        have h' := (Option.some.inj h).symm
        subst h'
        refine ⟨by simp, ?_, ?_⟩
        · simp only
          have := (alterTag_length_tag styles body).2
          rw [htaglen, hi]
          omega
        · simp [hne]
      · rename_i heq
        have heq' : '<' :: (body ++ ['>']) = alterTag styles ('<' :: (body ++ ['>'])) := by
          by_contra hc; exact heq hc
        have h' := (Option.some.inj h).symm
        subst h'
        refine ⟨?_, ?_, ?_⟩
        · simp only
          rw [← heq']
          conv_lhs => rw [hhtml]
          simp
        · simp only
          rw [← heq', htaglen, hi]
        · simp [← heq']

theorem loopBody_measure (styles : List QString) (st st' : LoopState)
    (h : loopBody styles st = some st') :
    st'.html.length - st'.pos < st.html.length - st.pos := by
  obtain ⟨D, pre, body, post, h1, h2, _, _, _, _, h3, h4, _⟩ := loopBody_some styles st st' h
  rw [h1, h3, h4, ← h2]
  simp only [List.length_append, List.length_cons]
  omega

theorem whileLoop_run (styles : List QString) :
    ∀ (fuel : Nat) (st : LoopState), st.html.length - st.pos ≤ fuel →
      ∃ r n, whileLoop styles fuel st = some (r, n) ∧ Run styles st r n
        ∧ n ≤ st.html.length - st.pos
  | 0, st, h => by
    have hn : ¬ st.pos < st.html.length := by omega
    exact ⟨st, 0, by simp [whileLoop, hn], Run.exit st hn, Nat.zero_le _⟩
  | fuel + 1, st, h => by
    by_cases hlt : st.pos < st.html.length
    · cases hb : loopBody styles st with
      | none =>
        exact ⟨st, 1, by simp [whileLoop, hlt, hb], Run.brk st hlt hb, by omega⟩
      | some st' =>
        have hm := loopBody_measure styles st st' hb
        obtain ⟨r, n, h1, h2, h3⟩ := whileLoop_run styles fuel st' (by omega)
        exact ⟨r, n + 1, by simp [whileLoop, hlt, hb, h1], Run.step st st' r n hlt hb h2,
          by omega⟩
    · exact ⟨st, 0, by simp [whileLoop, hlt], Run.exit st hlt, Nat.zero_le _⟩

/-! ## Runs of the loop for any replacement -/

theorem tag_of_split (html D pre body post : QString)
    (h : html = D ++ (pre ++ ('<' :: (body ++ '>' :: post)))) :
    (html.drop (D.length + pre.length)).take (body.length + 2) = '<' :: (body ++ ['>']) := by
  have h1 : html = (D ++ pre) ++ (('<' :: (body ++ ['>'])) ++ post) := by rw [h]; simp
  rw [h1, List.drop_left' (by simp)]
  exact List.take_left' (by simp)

theorem tagRegMatch_tag (body post : QString) (hnot : '>' ∉ body)
    (hbody : tagBodyMatches body = true) :
    tagRegMatch ('<' :: (body ++ ['>']) ++ post) = some ('<' :: (body ++ ['>'])).length := by
  rw [tagRegMatch_some]
  exact ⟨body, post, by simp, hnot, hbody, by simp⟩

theorem loopBodyBy_some (alter : QString → QString) (st st' : LoopState)
    (h : loopBodyBy alter st = some st') :
    ∃ D pre body post,
      st.html = D ++ (pre ++ ('<' :: (body ++ '>' :: post))) ∧ D.length = st.pos ∧
      '>' ∉ body ∧ tagBodyMatches body = true ∧
      (∀ p q, pre = p ++ q → q ≠ [] →
        tagRegMatch (q ++ '<' :: (body ++ '>' :: post)) = none) ∧
      indexOfTag st.html st.pos = some (st.pos + pre.length, body.length + 2) ∧
      st'.html = D ++ (pre ++ (alter ('<' :: (body ++ ['>'])) ++ post)) ∧
      st'.pos = st.pos + pre.length + (alter ('<' :: (body ++ ['>']))).length ∧
      st'.changed
        = (st.changed || decide ('<' :: (body ++ ['>']) ≠ alter ('<' :: (body ++ ['>'])))) := by
  unfold loopBodyBy at h
  cases hidx : indexOfTag st.html st.pos with
  | none => rw [hidx] at h; simp at h
  | some r =>
    obtain ⟨idx, mlen⟩ := r
    rw [hidx] at h
    obtain ⟨pre, rest, hdrop, hi, hmatch, hleft⟩ := searchTag_some _ _ _ _ hidx
    obtain ⟨body, post, hrest, hnot, hbody, hmlen⟩ := (tagRegMatch_some rest mlen).mp hmatch
    subst hrest
    have hpos : st.pos ≤ st.html.length := by
      by_contra hc
      have : st.html.drop st.pos = [] := List.drop_eq_nil_of_le (by omega)
      rw [this] at hdrop
      have := List.append_eq_nil.mp hdrop.symm
      simp at this
    have hD : (st.html.take st.pos).length = st.pos := by
      rw [List.length_take]; omega
    have hhtml : st.html = st.html.take st.pos ++ (pre ++ ('<' :: (body ++ '>' :: post))) := by
      rw [← hdrop, List.take_append_drop]
    have htag : '<' :: (body ++ '>' :: post) = ('<' :: (body ++ ['>'])) ++ post := by simp
    have htaglen : ('<' :: (body ++ ['>'])).length = mlen := by
      rw [hmlen]; simp
    have hdropidx : st.html.drop idx = ('<' :: (body ++ ['>'])) ++ post := by
      rw [hhtml, ← List.append_assoc, htag]
      apply List.drop_left'
      rw [List.length_append, hD, hi]
    have htake : (st.html.drop idx).take mlen = '<' :: (body ++ ['>']) := by
      rw [hdropidx]
      exact List.take_left' htaglen
    have htakeidx : st.html.take idx = st.html.take st.pos ++ pre := by
      conv_lhs => rw [hhtml, ← List.append_assoc]
      apply List.take_left'
      rw [List.length_append, hD, hi]
    have hdrop2 : st.html.drop (idx + mlen) = post := by
      conv_lhs => rw [hhtml, htag, ← List.append_assoc, ← List.append_assoc]
      apply List.drop_left'
      rw [List.length_append, List.length_append, hD, hi, htaglen]
    refine ⟨st.html.take st.pos, pre, body, post, hhtml, hD, hnot, hbody, hleft, ?_, ?_⟩
    · rw [hi, hmlen]
    · simp only [htake, hdrop2, htakeidx] at h
      split at h
      · rename_i hne
        have h' := (Option.some.inj h).symm
        subst h'
        refine ⟨by simp, ?_, ?_⟩
        · simp only
          rw [htaglen, hi]
          omega
        · simp [hne]
      · rename_i heq
        have heq' : '<' :: (body ++ ['>']) = alter ('<' :: (body ++ ['>'])) := by
          by_contra hc; exact heq hc
        have h' := (Option.some.inj h).symm
        subst h'
        refine ⟨?_, ?_, ?_⟩
        · simp only
          rw [← heq']
          conv_lhs => rw [hhtml]
          simp
        · simp only
          rw [← heq', htaglen, hi]
        · simp [← heq']

theorem loopBodyBy_measure (alter : QString → QString) (st st' : LoopState)
    (h : loopBodyBy alter st = some st') :
    st'.html.length - st'.pos < st.html.length - st.pos := by
  obtain ⟨D, pre, body, post, h1, h2, _, _, _, _, h3, h4, _⟩ := loopBodyBy_some alter st st' h
  rw [h1, h3, h4, ← h2]
  simp only [List.length_append, List.length_cons]
  omega

theorem whileLoopBy_run (alter : QString → QString) :
    ∀ (fuel : Nat) (st : LoopState), st.html.length - st.pos ≤ fuel →
      ∃ r n, whileLoopBy alter fuel st = some (r, n) ∧ RunBy alter st r n
        ∧ n ≤ st.html.length - st.pos
  | 0, st, h => by
    have hn : ¬ st.pos < st.html.length := by omega
    exact ⟨st, 0, by simp [whileLoopBy, hn], RunBy.exit st hn, Nat.zero_le _⟩
  | fuel + 1, st, h => by
    by_cases hlt : st.pos < st.html.length
    · cases hb : loopBodyBy alter st with
      | none =>
        exact ⟨st, 1, by simp [whileLoopBy, hlt, hb], RunBy.brk st hlt hb, by omega⟩
      | some st' =>
        have hm := loopBodyBy_measure alter st st' hb
        obtain ⟨r, n, h1, h2, h3⟩ := whileLoopBy_run alter fuel st' (by omega)
        exact ⟨r, n + 1, by simp [whileLoopBy, hlt, hb, h1], RunBy.step st st' r n hlt hb h2,
          by omega⟩
    · exact ⟨st, 0, by simp [whileLoopBy, hlt], RunBy.exit st hlt, Nat.zero_le _⟩

theorem RunBy.deterministic {alter : QString → QString} {st r : LoopState} {n : Nat}
    (h : RunBy alter st r n) : ∀ {r' : LoopState} {n' : Nat}, RunBy alter st r' n' →
      r = r' ∧ n = n' := by
  induction h with
  | exit st hn =>
    intro r' n' h'
    cases h' with
    | exit _ _ => exact ⟨rfl, rfl⟩
    | brk _ hlt _ => exact absurd hlt hn
    | step _ _ _ _ hlt _ _ => exact absurd hlt hn
  | brk st hlt hb =>
    intro r' n' h'
    cases h' with
    | exit _ hn => exact absurd hlt hn
    | brk _ _ _ => exact ⟨rfl, rfl⟩
    | step _ _ _ _ _ hb' _ => rw [hb] at hb'; simp at hb'
  | step st st' r n hlt hb _ ih =>
    intro r' n' h'
    cases h' with
    | exit _ hn => exact absurd hlt hn
    | brk _ _ hb' => rw [hb] at hb'; simp at hb'
    | step _ st'' _ m _ hb' hrun =>
      rw [hb] at hb'
      have := Option.some.inj hb'
      subst this
      obtain ⟨h1, h2⟩ := ih hrun
      exact ⟨h1, by rw [h2]⟩

theorem RunBy.segments {alter : QString → QString} {st r : LoopState} {n : Nat}
    (h : RunBy alter st r n) :
    ∃ segs tail, st.html.drop st.pos = origText segs ++ tail
      ∧ r.html = st.html.take st.pos ++ (alteredTextBy alter segs ++ tail)
      ∧ (∀ seg ∈ segs, ∀ post, tagRegMatch (seg.2 ++ post) = some seg.2.length)
      ∧ r.changed = (st.changed || segs.any (fun seg => decide (seg.2 ≠ alter seg.2))) := by
  induction h with
  | exit st hn =>
    refine ⟨[], [], ?_, ?_, by simp, by simp⟩
    · rw [List.drop_eq_nil_of_le (by omega)]; rfl
    · rw [List.take_of_length_le (by omega)]; simp [alteredTextBy]
  | brk st _ _ =>
    refine ⟨[], st.html.drop st.pos, rfl, ?_, by simp, by simp⟩
    simp [alteredTextBy]
  | step st st' r n _ hb _ ih =>
    obtain ⟨D, pre, body, post, h1, h2, h3, h4, _, _, h5, h6, h7⟩ := loopBodyBy_some alter st st' hb
    obtain ⟨segs, tail, i1, i2, i3, i4⟩ := ih
    have hpos' : st'.pos = (D ++ (pre ++ alter ('<' :: (body ++ ['>'])))).length := by
      rw [h6, ← h2]; simp only [List.length_append]; omega
    have e : D ++ (pre ++ (alter ('<' :: (body ++ ['>'])) ++ post))
        = (D ++ (pre ++ alter ('<' :: (body ++ ['>'])))) ++ post := by simp
    have hdrop' : st'.html.drop st'.pos = post := by
      rw [h5, hpos', e]
      exact List.drop_left' rfl
    have htake' : st'.html.take st'.pos = D ++ (pre ++ alter ('<' :: (body ++ ['>']))) := by
      rw [h5, hpos', e]
      exact List.take_left' rfl
    rw [hdrop'] at i1
    rw [htake'] at i2
    refine ⟨(pre, '<' :: (body ++ ['>'])) :: segs, tail, ?_, ?_, ?_, ?_⟩
    · conv_lhs => rw [h1, ← h2]
      rw [List.drop_left' rfl, i1]
      simp [origText]
    · rw [i2]
      conv_rhs => rw [h1, ← h2]
      rw [List.take_left' rfl]
      simp [alteredTextBy]
    · intro seg hseg post'
      rcases List.mem_cons.mp hseg with rfl | hseg
      · exact tagRegMatch_tag body post' h3 h4
      · exact i3 seg hseg post'
    · rw [i4, h7]
      simp [Bool.or_assoc]

theorem alteredTextBy_length (alter : QString → QString)
    (hsub : ∀ t : QString, (alter t).Sublist t) :
    ∀ segs : List (QString × QString),
      (alteredTextBy alter segs).length ≤ (origText segs).length
      ∧ (segs.any (fun seg => decide (seg.2 ≠ alter seg.2)) = true →
          (alteredTextBy alter segs).length < (origText segs).length)
      ∧ (segs.any (fun seg => decide (seg.2 ≠ alter seg.2)) = false →
          alteredTextBy alter segs = origText segs)
  | [] => by simp [alteredTextBy, origText]
  | seg :: rest => by
    obtain ⟨h1, h2, h3⟩ := alteredTextBy_length alter hsub rest
    have hs := hsub seg.2
    have hle := hs.length_le
    simp only [alteredTextBy, origText, List.length_append, List.any_cons, Bool.or_eq_true,
      Bool.or_eq_false_iff, decide_eq_true_eq, decide_eq_false_iff_not, not_not]
    refine ⟨by omega, ?_, ?_⟩
    · rintro (hne | hany)
      · have : (alter seg.2).length ≠ seg.2.length := by
          intro hlen
          exact hne (hs.eq_of_length hlen).symm
        omega
      · have := h2 hany
        omega
    · rintro ⟨heq, hany⟩
      rw [← heq, h3 hany]

theorem alterTagWith_sublist (replace : QString → QString → QString)
    (hw : CaptureWithinMatch replace) (styles : List QString) :
    ∀ s : QString, (alterTagWith replace styles s).Sublist s := by
  induction styles with
  | nil => intro s; exact List.Sublist.refl _
  | cons sty rest ih =>
    intro s
    exact (ih (replace sty s)).trans (hw sty s)

theorem alterTagWith_plain (replace : QString → QString → QString)
    (hl : LiteralOnPlainNames replace) :
    ∀ (styles : List QString), (∀ sty ∈ styles, isPlainName sty = true) →
      ∀ s : QString, alterTagWith replace styles s = alterTag styles s := by
  intro styles
  induction styles with
  | nil => intro _ s; rfl
  | cons sty rest ih =>
    intro hp s
    have h1 : replace sty s = replaceStyle sty s := hl sty (hp sty (List.mem_cons_self _ _)) s
    have h2 := ih (fun x hx => hp x (List.mem_cons_of_mem _ hx)) (replaceStyle sty s)
    show alterTagWith replace rest (replace sty s) = alterTag rest (replaceStyle sty s)
    rw [h1, h2]

theorem removeStylesWith_segments (replace : QString → QString → QString)
    (styles : List QString) (html : QString) :
    ∃ changed html', removeStylesWith replace styles html = some (changed, html') ∧
      ∃ segs tail, html = origText segs ++ tail
        ∧ html' = alteredTextBy (alterTagWith replace styles) segs ++ tail
        ∧ (∀ seg ∈ segs, ∀ post, tagRegMatch (seg.2 ++ post) = some seg.2.length)
        ∧ changed = segs.any (fun seg => decide (seg.2 ≠ alterTagWith replace styles seg.2)) := by
  by_cases hs : styles.isEmpty = true
  · have hnil : styles = [] := List.isEmpty_iff.mp hs
    refine ⟨false, html, by simp [removeStylesWith, hs], [], html, by simp [origText],
      by simp [alteredTextBy], by simp, by simp⟩
  · obtain ⟨r, n, h1, h2, _⟩ := whileLoopBy_run (alterTagWith replace styles) html.length
      (initState html) (by simp [initState])
    obtain ⟨segs, tail, i1, i2, i3, i4⟩ := h2.segments
    refine ⟨r.changed, r.html, by simp [removeStylesWith, hs, h1], segs, tail, ?_, ?_, i3, ?_⟩
    · simpa [initState] using i1
    · simpa [initState] using i2
    · simpa [initState] using i4

theorem removeStylesWith_plain (replace : QString → QString → QString)
    (hl : LiteralOnPlainNames replace) (styles : List QString)
    (hp : ∀ sty ∈ styles, isPlainName sty = true) (html : QString) :
    removeStylesWith replace styles html = removeStyles styles html := by
  have hfun : alterTagWith replace styles = alterTag styles :=
    funext (alterTagWith_plain replace hl styles hp)
  have hbody : ∀ st, loopBodyBy (alterTag styles) st = loopBody styles st := fun _ => rfl
  have hloop : ∀ (fuel : Nat) (st : LoopState),
      whileLoopBy (alterTag styles) fuel st = whileLoop styles fuel st := by
    intro fuel
    induction fuel with
    | zero => intro st; rfl
    | succ k ih =>
      intro st
      simp only [whileLoopBy, whileLoop, hbody]
      split
      · cases loopBody styles st with
        | none => rfl
        | some st' => simp only [ih]
      · rfl
  simp only [removeStylesWith, removeStyles, hfun, hloop]

/-! ## The `QRegExp` for patterns with alternatives keeps to what holds of the call -/

theorem rxGo_nil (alts : List (Bool × List (CharClass × Quant))) (k : Nat) :
    rxGo alts k [] = [] := by
  cases k <;> rfl

theorem rxGo_skip (alts : List (Bool × List (CharClass × Quant))) (k : Nat) (c : Char)
    (rest : QString) : rxGo alts (k + 1) (c :: rest) = rxGo alts k rest := rfl

theorem rxGo_zero (alts : List (Bool × List (CharClass × Quant))) (c : Char)
    (rest : QString) :
    rxGo alts 0 (c :: rest) =
      match patternMatch alts (c :: rest) with
      | none => c :: rxGo alts 0 rest
      | some (0, _) => c :: rxGo alts 0 rest
      | some (len + 1, true) => c :: rxGo alts len rest
      | some (len + 1, false) => rxGo alts len rest := rfl

theorem rxGo_sublist (alts : List (Bool × List (CharClass × Quant))) :
    ∀ (s : QString) (k : Nat), (rxGo alts k s).Sublist s
  | [], k => by rw [rxGo_nil]
  | _ :: rest, k + 1 => by
    rw [rxGo_skip]
    exact (rxGo_sublist alts rest k).cons _
  | c :: rest, 0 => by
    rw [rxGo_zero]
    split
    · exact (rxGo_sublist alts rest 0).cons₂ _
    · exact (rxGo_sublist alts rest 0).cons₂ _
    · exact (rxGo_sublist alts rest _).cons₂ _
    · exact (rxGo_sublist alts rest _).cons _

theorem qRegExpReplace_within : CaptureWithinMatch qRegExpReplace := by
  intro sty s
  unfold qRegExpReplace
  split
  · exact replaceStyle_sublist sty s
  · split
    · exact rxGo_sublist _ s 0
    · exact List.Sublist.refl _

theorem qRegExpReplace_literal : LiteralOnPlainNames qRegExpReplace := by
  intro sty hp s
  simp [qRegExpReplace, hp]

/-! ## Termination and change reporting of `removeStyles` -/

/-- C9 (counterexample): with the style name `a:b;|<[^>]*>|c` the pattern is
`(\s|")a:b;|<[^>]*>|c:[^;]+;`, whose second alternative matches a whole tag
without the group `(\s|")`. In the HTML `<p style="x">text` the tag is found at
index 0 with length 13 and is rewritten to the empty text, so the rewritten
tag has no leading `<`, and the next search position is 0, the index of the
tag, not a greater one. The loop ends all the same and leaves `text`. -/
theorem loopBody_rewrites_tag_to_nothing :
    indexOfTag "<p style=\"x\">text".toList 0 = some (0, 13)
    ∧ alterTagWith qRegExpReplace ["a:b;|<[^>]*>|c".toList]
        (("<p style=\"x\">text".toList.drop 0).take 13) = []
    ∧ loopBodyBy (alterTagWith qRegExpReplace ["a:b;|<[^>]*>|c".toList])
        (initState "<p style=\"x\">text".toList)
        = some { html := "text".toList, pos := 0, changed := true }
    ∧ removeStylesWith qRegExpReplace ["a:b;|<[^>]*>|c".toList] "<p style=\"x\">text".toList
        = some (true, "text".toList) := by
  decide

/-- C9 (amended): `removeStyles` terminates on every HTML string and every list
of style names, whatever the regular expressions of the names match. Every run
of the loop body that finds a tag at `idx` with length `mlen` sets the next
search position to `idx` plus the length of the rewritten tag, which is the
end of the match moved back by the number of removed characters and is not in
front of the old position, and makes the distance from the position to the
end of the HTML strictly smaller. Hence the loop ends: with the size of the
HTML, or any larger number, as fuel it returns the same state after at most as
many runs of the body as the HTML has characters, and `removeStyles` returns a
result. When every style name is a plain CSS identifier, the rewritten tag
keeps its leading `<` and the next search position is strictly greater than
`idx` and than the old position. -/
theorem removeStyles_terminates (replace : QString → QString → QString)
    (hw : CaptureWithinMatch replace) (hl : LiteralOnPlainNames replace)
    (styles : List QString) (html : QString) :
    (∀ st st' : LoopState, loopBodyBy (alterTagWith replace styles) st = some st' →
      ∃ idx mlen, indexOfTag st.html st.pos = some (idx, mlen)
        ∧ st'.pos = idx + (alterTagWith replace styles ((st.html.drop idx).take mlen)).length
        ∧ st'.pos + (mlen - (alterTagWith replace styles ((st.html.drop idx).take mlen)).length)
            = idx + mlen
        ∧ st.pos ≤ st'.pos
        ∧ st'.html.length - st'.pos < st.html.length - st.pos
        ∧ ((∀ sty ∈ styles, isPlainName sty = true) →
            (alterTagWith replace styles ((st.html.drop idx).take mlen)).head? = some '<'
            ∧ idx < st'.pos ∧ st.pos < st'.pos))
    ∧ (∃ r n, whileLoopBy (alterTagWith replace styles) html.length (initState html)
          = some (r, n) ∧ n ≤ html.length
        ∧ ∀ fuel, html.length ≤ fuel →
            whileLoopBy (alterTagWith replace styles) fuel (initState html) = some (r, n))
    ∧ ∃ res, removeStylesWith replace styles html = some res := by
  refine ⟨?_, ?_, ?_⟩
  · intro st st' hb
    obtain ⟨D, pre, body, post, h1, h2, _, _, _, h3, _, h5, _⟩ :=
      loopBodyBy_some (alterTagWith replace styles) st st' hb
    have hm := loopBodyBy_measure (alterTagWith replace styles) st st' hb
    have htag := tag_of_split st.html D pre body post h1
    rw [h2] at htag
    have hsub := alterTagWith_sublist replace hw styles ('<' :: (body ++ ['>']))
    have hle := hsub.length_le
    simp only [List.length_cons, List.length_append, List.length_nil] at hle
    refine ⟨st.pos + pre.length, body.length + 2, h3, ?_, ?_, ?_, hm, ?_⟩
    · rw [htag, h5]
    · rw [htag, h5]; omega
    · rw [h5]; omega
    · intro hp
      rw [htag, alterTagWith_plain replace hl styles hp]
      obtain ⟨b, hb1, _⟩ := alterTag_tag styles body
      have hlen := alterTag_length_tag styles body
      rw [alterTagWith_plain replace hl styles hp] at h5
      refine ⟨by rw [hb1]; rfl, ?_, ?_⟩
      · rw [h5]; omega
      · rw [h5]; omega
  · obtain ⟨r, n, h1, h2, h3⟩ := whileLoopBy_run (alterTagWith replace styles) html.length
      (initState html) (by simp [initState])
    refine ⟨r, n, h1, by simpa [initState] using h3, ?_⟩
    intro fuel hfuel
    obtain ⟨r', n', h1', h2', _⟩ := whileLoopBy_run (alterTagWith replace styles) fuel
      (initState html) (by simp only [initState]; omega)
    obtain ⟨e1, e2⟩ := h2.deterministic h2'
    rw [h1', e1, e2]
  · obtain ⟨changed, html', h, _⟩ := removeStylesWith_segments replace styles html
    exact ⟨_, h⟩

/-- C9 (witness): `removeStyles` returns for the style name `a:b;|<[^>]*>|c`
and the HTML `<p style="x">text`. -/
theorem removeStyles_terminates_witness :
    ∃ res, removeStylesWith qRegExpReplace ["a:b;|<[^>]*>|c".toList]
      "<p style=\"x\">text".toList = some res :=
  (removeStyles_terminates qRegExpReplace qRegExpReplace_within qRegExpReplace_literal
    ["a:b;|<[^>]*>|c".toList] "<p style=\"x\">text".toList).2.2

/-- C10: `removeStyles` reports changes faithfully, whatever the regular
expressions of the style names match. For every HTML string and every list of
style names it returns a flag and leaves an HTML string such that the flag is
true exactly when the string differs from the one it got. With an empty style
list, and with HTML in which `tagReg` matches nowhere, the flag is false and
the string is unchanged. The HTML it got is a sequence of pieces, each some
text followed by a tag that `tagReg` matches, and a rest; the HTML it leaves
is the same sequence with every tag rewritten by the replacements of the
styles, so no character outside these tags is modified. -/
theorem removeStyles_reports_changes (replace : QString → QString → QString)
    (hw : CaptureWithinMatch replace) (styles : List QString) (html : QString) :
    ∃ changed html', removeStylesWith replace styles html = some (changed, html')
      ∧ (changed = true ↔ html' ≠ html)
      ∧ (styles = [] → changed = false ∧ html' = html)
      ∧ ((∀ i, tagRegMatch (html.drop i) = none) → changed = false ∧ html' = html)
      ∧ ∃ segs tail, html = origText segs ++ tail
          ∧ html' = alteredTextBy (alterTagWith replace styles) segs ++ tail
          ∧ ∀ seg ∈ segs, tagRegMatch seg.2 = some seg.2.length := by
  obtain ⟨changed, html', h, segs, tail, h1, h2, h3, h4⟩ :=
    removeStylesWith_segments replace styles html
  obtain ⟨_, hlt, heq⟩ := alteredTextBy_length (alterTagWith replace styles)
    (alterTagWith_sublist replace hw styles) segs
  have hiff : changed = true ↔ html' ≠ html := by
    constructor
    · intro hc
      rw [h4] at hc
      have := hlt hc
      intro he
      rw [h1, h2] at he
      have := congrArg List.length he
      simp only [List.length_append] at this
      omega
    · intro hne
      by_contra hc
      have hc' : segs.any (fun seg => decide (seg.2 ≠ alterTagWith replace styles seg.2))
          = false := by
        rw [← h4]; simpa using hc
      exact hne (by rw [h1, h2, heq hc'])
  have hfalse : changed = false → changed = false ∧ html' = html := by
    intro hc
    refine ⟨hc, ?_⟩
    by_contra hne
    have := hiff.mpr hne
    rw [hc] at this
    exact Bool.noConfusion this
  refine ⟨changed, html', h, hiff, ?_, ?_, segs, tail, h1, h2, ?_⟩
  · intro hs
    subst hs
    simp only [removeStylesWith, List.isEmpty_nil, if_true, Option.some.injEq,
      Prod.mk.injEq] at h
    exact ⟨h.1.symm, h.2.symm⟩
  · intro hno
    apply hfalse
    cases segs with
    | nil => rw [h4]; rfl
    | cons seg rest =>
      exfalso
      have hm := h3 seg (List.mem_cons_self _ _) (origText rest ++ tail)
      have hd : html.drop seg.1.length = seg.2 ++ (origText rest ++ tail) := by
        rw [h1]
        simp only [origText, List.append_assoc]
        exact List.drop_left' rfl
      have := hno seg.1.length
      rw [hd, hm] at this
      exact Option.noConfusion this
  · intro seg hseg
    have := h3 seg hseg []
    simpa using this

/-- C10 (witness): for the style name `colo.`, whose pattern matches the
declaration of `color`, and the HTML `<p style="color:red;">`, `removeStyles`
returns a flag that is true exactly when the HTML it leaves differs. -/
theorem removeStyles_reports_changes_witness :
    ∃ changed html', removeStylesWith qRegExpReplace ["colo.".toList]
        "<p style=\"color:red;\">".toList = some (changed, html')
      ∧ (changed = true ↔ html' ≠ "<p style=\"color:red;\">".toList) :=
  match removeStyles_reports_changes qRegExpReplace qRegExpReplace_within ["colo.".toList]
      "<p style=\"color:red;\">".toList with
  | ⟨changed, html', h, hiff, _⟩ => ⟨changed, html', h, hiff⟩

/-- The style name `colo.` is run as a regular expression: `removeStyles`
returns true and leaves `<p style="">` for the HTML `<p style="color:red;">`. -/
theorem removeStylesWith_dot :
    removeStylesWith qRegExpReplace ["colo.".toList] "<p style=\"color:red;\">".toList
      = some (true, "<p style=\"\">".toList) := by
  decide

/-! ## Declarations that are left in a rewritten tag -/

theorem isIdentChar_nonsep (c : Char) (h : isIdentChar c = true) : isSep c = false := by
  have hq : c = '"' → c.toNat = 34 := fun e => by rw [e]; rfl
  simp only [isIdentChar, Bool.or_eq_true, Bool.and_eq_true, decide_eq_true_eq] at h
  cases hs : isSep c with
  | false => rfl
  | true =>
    simp only [isSep, isSpace, Bool.or_eq_true, Bool.and_eq_true, decide_eq_true_eq] at hs
    rcases hs with hs | hs
    · omega
    · have := hq hs
      omega

theorem isPlainName_nonsep (sty : QString) (h : isPlainName sty = true) :
    ∀ c ∈ sty, isSep c = false := by
  intro c hc
  simp only [isPlainName, Bool.and_eq_true, List.all_eq_true] at h
  exact isIdentChar_nonsep c (h.2 c hc)

theorem first_split (x : Char) : ∀ l : QString, x ∈ l → ∃ v w, l = v ++ x :: w ∧ x ∉ v
  | [], h => by simp at h
  | a :: t, h => by
    by_cases ha : a = x
    · exact ⟨[], t, by rw [ha]; rfl, by simp⟩
    · have ht : x ∈ t := by
        rcases List.mem_cons.mp h with e | e
        · exact absurd e.symm ha
        · exact e
      obtain ⟨v, w, hl, hv⟩ := first_split x t ht
      refine ⟨a :: v, w, by rw [hl]; rfl, ?_⟩
      intro hm
      rcases List.mem_cons.mp hm with e | e
      · exact ha e.symm
      · exact hv e

theorem first_split_unique (x : Char) : ∀ (v v' w w' : QString),
    v ++ x :: w = v' ++ x :: w' → x ∉ v → x ∉ v' → v = v' ∧ w = w'
  | [], [], w, w', h, _, _ => ⟨rfl, (List.cons.inj h).2⟩
  | [], b :: v', w, w', h, _, h2 => by
    exfalso
    have := (List.cons.inj h).1
    exact h2 (by rw [this]; exact List.mem_cons_self _ _)
  | a :: v, [], w, w', h, h1, _ => by
    exfalso
    have := (List.cons.inj h).1
    exact h1 (by rw [← this]; exact List.mem_cons_self _ _)
  | a :: v, b :: v', w, w', h, h1, h2 => by
    obtain ⟨e1, e2⟩ := List.cons.inj h
    obtain ⟨r1, r2⟩ := first_split_unique x v v' w w' e2
      (fun hm => h1 (List.mem_cons_of_mem _ hm)) (fun hm => h2 (List.mem_cons_of_mem _ hm))
    exact ⟨by rw [e1, r1], r2⟩

theorem replaceGo_starts (b : QString) : ∀ (p s t : QString), (∀ c ∈ p, isSep c = false) →
    replaceGo b 0 s = p ++ t → ∃ s', s = p ++ s' ∧ replaceGo b 0 s' = t
  | [], s, t, _, h => ⟨s, rfl, h⟩
  | a :: p, [], t, _, h => by rw [replaceGo_nil] at h; exact List.noConfusion h
  | a :: p, c :: rest, t, hp, h => by
    obtain ⟨k, hk⟩ := replaceGo_head b c rest
    rw [hk, List.cons_append] at h
    have hca : c = a := (List.cons.inj h).1
    subst hca
    have hns : isSep c = false := hp c (List.mem_cons_self _ _)
    have h' : replaceGo b 0 (c :: rest) = c :: (p ++ t) := by rw [hk, h]
    rw [replaceGo_cons_nonsep b c rest hns] at h'
    obtain ⟨s', hs1, hs2⟩ := replaceGo_starts b p rest t
      (fun x hx => hp x (List.mem_cons_of_mem _ hx)) (List.cons.inj h').2
    exact ⟨s', by rw [hs1]; rfl, hs2⟩

theorem replaceGo_first (b : QString) (y : Char) (s t : QString)
    (h : replaceGo b 0 s = y :: t) : ∃ s', s = y :: s' := by
  cases s with
  | nil => rw [replaceGo_nil] at h; exact List.noConfusion h
  | cons c rest =>
    obtain ⟨k, hk⟩ := replaceGo_head b c rest
    rw [hk] at h
    exact ⟨rest, by rw [(List.cons.inj h).1]⟩

theorem isSep_colon : isSep ':' = false := by decide

theorem isSep_semicolon : isSep ';' = false := by decide

theorem styleRegMatch_of_replaced (a b : QString) (ha : ∀ c ∈ a, isSep c = false)
    (c : Char) (rest : QString) (len : Nat)
    (h : styleRegMatch a (c :: replaceGo b 0 rest) = some len) :
    ∃ len', styleRegMatch a (c :: rest) = some len' := by
  obtain ⟨c', v, w, hs, hsep, hv, hnot, _⟩ := (styleRegMatch_some a _ len).mp h
  obtain ⟨hc, hR⟩ := List.cons.inj hs
  subst hc
  have hR' : replaceGo b 0 rest = (a ++ [':']) ++ (v ++ ';' :: w) := by rw [hR]; simp
  have hns : ∀ x ∈ a ++ [':'], isSep x = false := by
    intro x hx
    rcases List.mem_append.mp hx with hx | hx
    · exact ha x hx
    · rw [List.mem_singleton.mp hx]; exact isSep_colon
  obtain ⟨s', hs1, hs2⟩ := replaceGo_starts b _ rest _ hns hR'
  cases v with
  | nil => exact absurd rfl hv
  | cons y v' =>
    rw [List.cons_append] at hs2
    obtain ⟨s'', hs3⟩ := replaceGo_first b y s' _ hs2
    have hy : y ≠ ';' := fun e => hnot (by rw [e]; exact List.mem_cons_self _ _)
    have hmem : ';' ∈ s' := by
      have h1 : ';' ∈ replaceGo b 0 s' := by rw [hs2]; simp
      exact (replaceGo_sublist b s' 0).subset h1
    have hmem' : ';' ∈ s'' := by
      rw [hs3] at hmem
      rcases List.mem_cons.mp hmem with e | e
      · exact absurd e.symm hy
      · exact e
    obtain ⟨v2, w2, hl, hv2⟩ := first_split ';' s'' hmem'
    refine ⟨a.length + (y :: v2).length + 3, ?_⟩
    rw [styleRegMatch_some]
    refine ⟨c, y :: v2, w2, ?_, hsep, List.cons_ne_nil _ _, ?_, rfl⟩
    · rw [hs1, hs3, hl]; simp
    · intro hm
      rcases List.mem_cons.mp hm with e | e
      · exact hy e.symm
      · exact hv2 e

theorem occurs_tail (p : QString) (c : Char) (rest : QString)
    (h : occurs p (c :: rest) = false) : occurs p rest = false := by
  simp only [occurs, Bool.or_eq_false_iff] at h
  exact h.2

theorem occurs_append (x : Char) (p : QString) :
    ∀ pre post : QString, occurs (x :: p) (pre ++ ((x :: p) ++ post)) = true
  | [], post => by
    have : (x :: p).isPrefixOf (x :: p ++ post) = true := by
      rw [List.isPrefixOf_iff_prefix]; exact List.prefix_append _ _
    simp only [List.nil_append, List.cons_append, occurs, Bool.or_eq_true]
    exact Or.inl this
  | a :: pre, post => by
    simp only [List.cons_append, occurs, Bool.or_eq_true]
    exact Or.inr (occurs_append x p pre post)

theorem occurs_suffix (p : QString) : ∀ (pre s : QString),
    occurs p (pre ++ s) = false → occurs p s = false
  | [], _, h => h
  | c :: pre, s, h => occurs_suffix p pre s (occurs_tail p c _ h)

theorem hasDecl_suffix (sty : QString) : ∀ (pre s : QString),
    hasDecl sty (pre ++ s) = false → hasDecl sty s = false
  | [], _, h => h
  | c :: pre, s, h => by
    simp only [List.cons_append, hasDecl, Bool.or_eq_false_iff] at h
    exact hasDecl_suffix sty pre s h.2

theorem styleRegMatch_after_match (a b : QString) (ha : ∀ c ∈ a, isSep c = false)
    (c : Char) (rest : QString) (len : Nat)
    (hocc : followsSemicolon a (c :: rest) = false)
    (hm : styleRegMatch b (c :: rest) = some len) :
    styleRegMatch a (c :: replaceGo b (len - 1) rest) = none := by
  obtain ⟨c', v, w, hs, _, _, _, hl⟩ := (styleRegMatch_some b _ len).mp hm
  obtain ⟨hc, hrest⟩ := List.cons.inj hs
  have hdrop : rest.drop (len - 1) = w := by
    have : rest = (b ++ ':' :: (v ++ [';'])) ++ w := by rw [hrest]; simp
    rw [this]
    apply List.drop_left'
    rw [hl]
    simp only [List.length_append, List.length_cons, List.length_nil]
    omega
  rw [replaceGo_drop, hdrop]
  cases hx : styleRegMatch a (c :: replaceGo b 0 w) with
  | none => rfl
  | some l =>
    exfalso
    obtain ⟨c2, v2, w2, hs2, _, _, _, _⟩ := (styleRegMatch_some a _ l).mp hx
    have hR : replaceGo b 0 w = (a ++ [':']) ++ (v2 ++ ';' :: w2) := by
      rw [(List.cons.inj hs2).2]; simp
    have hns : ∀ x ∈ a ++ [':'], isSep x = false := by
      intro x hx
      rcases List.mem_append.mp hx with hx | hx
      · exact ha x hx
      · rw [List.mem_singleton.mp hx]; exact isSep_colon
    obtain ⟨s', hs1, _⟩ := replaceGo_starts b _ w _ hns hR
    have hall : c :: rest = (c :: (b ++ ':' :: v)) ++ ((';' :: (a ++ [':'])) ++ s') := by
      rw [hrest, hs1]; simp
    rw [followsSemicolon, hall, occurs_append] at hocc
    exact Bool.noConfusion hocc

theorem replaceGo_noDecl (a b : QString) (ha : ∀ c ∈ a, isSep c = false) :
    ∀ (s : QString) (k : Nat), followsSemicolon a s = false →
      (a = b ∨ hasDecl a s = false) → hasDecl a (replaceGo b k s) = false
  | [], k, _, _ => by rw [replaceGo_nil]; rfl
  | c :: rest, k + 1, hocc, hd => by
    rw [replaceGo_skip]
    refine replaceGo_noDecl a b ha rest k (occurs_tail _ c rest hocc) ?_
    rcases hd with e | e
    · exact Or.inl e
    · simp only [hasDecl, Bool.or_eq_false_iff] at e
      exact Or.inr e.2
  | c :: rest, 0, hocc, hd => by
    have hd' : a = b ∨ hasDecl a rest = false := by
      rcases hd with e | e
      · exact Or.inl e
      · simp only [hasDecl, Bool.or_eq_false_iff] at e
        exact Or.inr e.2
    have hocc' := occurs_tail _ c rest hocc
    rw [replaceGo_zero]
    cases hm : styleRegMatch b (c :: rest) with
    | some len =>
      simp only [hasDecl, Bool.or_eq_false_iff]
      refine ⟨?_, replaceGo_noDecl a b ha rest (len - 1) hocc' hd'⟩
      rw [styleRegMatch_after_match a b ha c rest len hocc hm]
      rfl
    | none =>
      simp only [hasDecl, Bool.or_eq_false_iff]
      refine ⟨?_, replaceGo_noDecl a b ha rest 0 hocc' hd'⟩
      cases hx : styleRegMatch a (c :: replaceGo b 0 rest) with
      | none => rfl
      | some l =>
        exfalso
        obtain ⟨l', hl'⟩ := styleRegMatch_of_replaced a b ha c rest l hx
        rcases hd with e | e
        · rw [e, hm] at hl'; exact Option.noConfusion hl'
        · simp only [hasDecl, Bool.or_eq_false_iff] at e
          rw [hl'] at e
          exact Bool.noConfusion e.1

theorem replaceGo_occurs (a b : QString) (ha : ∀ c ∈ a, isSep c = false) :
    ∀ (s : QString) (k : Nat), followsSemicolon a s = false →
      followsSemicolon a (replaceGo b k s) = false
  | [], k, h => by rw [replaceGo_nil]; exact h
  | c :: rest, k + 1, h => by
    rw [replaceGo_skip]
    exact replaceGo_occurs a b ha rest k (occurs_tail _ c rest h)
  | c :: rest, 0, h => by
    obtain ⟨k, hk⟩ := replaceGo_head b c rest
    have ih := replaceGo_occurs a b ha rest k (occurs_tail _ c rest h)
    cases hx : followsSemicolon a (replaceGo b 0 (c :: rest)) with
    | false => rfl
    | true =>
      exfalso
      rw [hk] at hx
      simp only [followsSemicolon, occurs, Bool.or_eq_true] at hx
      rcases hx with hx | hx
      · rw [List.isPrefixOf_iff_prefix] at hx
        obtain ⟨t, ht⟩ := hx
        have hR : replaceGo b 0 (c :: rest) = (';' :: a) ++ (':' :: t) := by
          rw [hk, ← ht]; simp
        have hns : ∀ x ∈ ';' :: a, isSep x = false := by
          intro x hx
          rcases List.mem_cons.mp hx with hx | hx
          · rw [hx]; exact isSep_semicolon
          · exact ha x hx
        obtain ⟨s', hs1, hs2⟩ := replaceGo_starts b _ _ _ hns hR
        obtain ⟨s'', hs3⟩ := replaceGo_first b ':' s' t hs2
        have hall : c :: rest = [] ++ ((';' :: (a ++ [':'])) ++ s'') := by
          rw [hs1, hs3]; simp
        rw [followsSemicolon, hall, occurs_append] at h
        exact Bool.noConfusion h
      · rw [followsSemicolon] at ih
        rw [ih] at hx
        exact Bool.noConfusion hx

theorem alterTag_noDecl (names : List QString) (hn : ∀ a ∈ names, ∀ c ∈ a, isSep c = false) :
    ∀ (styles : List QString) (s : QString),
      (∀ a ∈ names, followsSemicolon a s = false) →
      (∀ a ∈ names, followsSemicolon a (alterTag styles s) = false)
      ∧ (∀ a ∈ names, hasDecl a s = false → hasDecl a (alterTag styles s) = false)
      ∧ (∀ a ∈ names, a ∈ styles → hasDecl a (alterTag styles s) = false)
  | [], s, h => ⟨h, fun _ _ hd => hd, fun _ _ hm => by simp at hm⟩
  | b :: rest, s, h => by
    have h1 : ∀ a ∈ names, followsSemicolon a (replaceStyle b s) = false :=
      fun a ha => replaceGo_occurs a b (hn a ha) s 0 (h a ha)
    obtain ⟨i1, i2, i3⟩ := alterTag_noDecl names hn rest (replaceStyle b s) h1
    refine ⟨i1, ?_, ?_⟩
    · intro a ha hd
      exact i2 a ha (replaceGo_noDecl a b (hn a ha) s 0 (h a ha) (Or.inr hd))
    · intro a ha hm
      rcases List.mem_cons.mp hm with e | e
      · exact i2 a ha (replaceGo_noDecl a b (hn a ha) s 0 (h a ha) (Or.inl e))
      · exact i3 a ha e

/-! ## Tags of the HTML that `removeStyles` leaves -/

theorem styleAttrIn_append : ∀ (x r : QString), styleAttrIn r = true →
    styleAttrIn (x ++ r) = true
  | [], _, h => h
  | a :: x, r, h => by
    simp only [List.cons_append, styleAttrIn, Bool.or_eq_true]
    exact Or.inr (styleAttrIn_append x r h)

theorem tagBodyMatches_append (x body : QString) (h : tagBodyMatches body = true) :
    tagBodyMatches (x ++ body) = true := by
  cases body with
  | nil => simp [tagBodyMatches] at h
  | cons y r =>
    simp only [tagBodyMatches] at h
    cases x with
    | nil => exact h
    | cons a x' =>
      simp only [List.cons_append, tagBodyMatches]
      have : x' ++ y :: r = (x' ++ [y]) ++ r := by simp
      rw [this]
      exact styleAttrIn_append _ r h

theorem occurs_extend (p : QString) : ∀ (t post : QString), occurs p t = true →
    occurs p (t ++ post) = true
  | [], post, h => by
    simp only [occurs, List.isEmpty_iff] at h
    subst h
    cases post with
    | nil => rfl
    | cons c rest => simp [occurs]
  | c :: rest, post, h => by
    simp only [occurs, Bool.or_eq_true] at h
    simp only [List.cons_append, occurs, Bool.or_eq_true]
    rcases h with h | h
    · left
      rw [List.isPrefixOf_iff_prefix] at h ⊢
      exact h.trans (List.prefix_append (c :: rest) post)
    · exact Or.inr (occurs_extend p rest post h)

theorem tagRegMatch_before_tag (q body body' post z : QString) (len : Nat) (hq : q ≠ [])
    (hnot : '>' ∉ body) (hbody : tagBodyMatches body = true)
    (h : tagRegMatch (q ++ ('<' :: (body' ++ '>' :: z))) = some len) :
    ∃ len', tagRegMatch (q ++ ('<' :: (body ++ '>' :: post))) = some len' := by
  obtain ⟨B, P, hs, hB, hBm, _⟩ := (tagRegMatch_some _ len).mp h
  cases q with
  | nil => exact absurd rfl hq
  | cons c q' =>
    rw [List.cons_append] at hs
    obtain ⟨hc, ht⟩ := List.cons.inj hs
    subst hc
    by_cases hmem : '>' ∈ q'
    · obtain ⟨v, w, hl, hv⟩ := first_split '>' q' hmem
      have ht' : v ++ '>' :: (w ++ ('<' :: (body' ++ '>' :: z))) = B ++ '>' :: P := by
        rw [← ht, hl]; simp
      obtain ⟨e1, _⟩ := first_split_unique '>' _ _ _ _ ht' hv hB
      refine ⟨v.length + 2, ?_⟩
      rw [tagRegMatch_some]
      refine ⟨v, w ++ ('<' :: (body ++ '>' :: post)), ?_, hv, by rw [e1]; exact hBm, rfl⟩
      rw [hl]; simp
    · refine ⟨(q' ++ '<' :: body).length + 2, ?_⟩
      rw [tagRegMatch_some]
      refine ⟨q' ++ '<' :: body, post, by simp, ?_, ?_, rfl⟩
      · intro hm
        rcases List.mem_append.mp hm with e | e
        · exact hmem e
        · rcases List.mem_cons.mp e with e | e
          · exact absurd e (by decide)
          · exact hnot e
      · have : q' ++ '<' :: body = (q' ++ ['<']) ++ body := by simp
        rw [this]
        exact tagBodyMatches_append _ body hbody

theorem tagRegMatch_in_tag (x q body' z : QString) (len : Nat) (hq : q ≠ [])
    (hnot : '>' ∉ body') (hx : x ++ q = '<' :: (body' ++ ['>']))
    (h : tagRegMatch (q ++ z) = some len) : len = q.length := by
  rcases List.eq_nil_or_concat q with e | ⟨y, e', e⟩
  · exact absurd e hq
  · rw [List.concat_eq_append] at e
    subst e
    have hx' : (x ++ y) ++ [e'] = ('<' :: body') ++ ['>'] := by
      rw [List.append_assoc, hx]; rfl
    obtain ⟨h1, h2⟩ := List.append_inj' hx' rfl
    have he : e' = '>' := (List.cons.inj h2).1
    subst he
    have hy : '>' ∉ y := by
      intro hm
      have : '>' ∈ '<' :: body' := by rw [← h1]; exact List.mem_append_right _ hm
      rcases List.mem_cons.mp this with e | e
      · exact absurd e (by decide)
      · exact hnot e
    obtain ⟨B, P, hs, hB, _, hlen⟩ := (tagRegMatch_some _ len).mp h
    cases y with
    | nil =>
      exfalso
      have := (List.cons.inj hs).1
      exact absurd this (by decide)
    | cons c y' =>
      have hs' : c :: (y' ++ '>' :: z) = '<' :: (B ++ '>' :: P) := by rw [← hs]; simp
      obtain ⟨_, ht⟩ := List.cons.inj hs'
      obtain ⟨e1, _⟩ := first_split_unique '>' _ _ _ _ ht
        (fun hm => hy (List.mem_cons_of_mem _ hm)) hB
      rw [hlen, ← e1]
      simp

theorem CleanUpTo_step (styles : List QString) (D pre body body' post : QString)
    (hD : CleanUpTo styles D) (hnot : '>' ∉ body) (hbody : tagBodyMatches body = true)
    (hleft : ∀ p q, pre = p ++ q → q ≠ [] →
      tagRegMatch (q ++ '<' :: (body ++ '>' :: post)) = none)
    (hsub : body'.Sublist body)
    (hclean : ∀ sty ∈ styles, hasDecl sty ('<' :: (body' ++ ['>'])) = false) :
    CleanUpTo styles (D ++ (pre ++ ('<' :: (body' ++ ['>'])))) := by
  intro z i len hi hm
  have hnot' : '>' ∉ body' := fun hm => hnot (hsub.subset hm)
  by_cases h1 : i < D.length
  · have e : (D ++ (pre ++ ('<' :: (body' ++ ['>'])))) ++ z
        = D ++ ((pre ++ ('<' :: (body' ++ ['>']))) ++ z) := by simp
    rw [e] at hm ⊢
    obtain ⟨r1, r2⟩ := hD _ i len h1 hm
    refine ⟨?_, r2⟩
    simp only [List.length_append]
    omega
  · obtain ⟨j, hj⟩ : ∃ j, i = D.length + j := ⟨i - D.length, by omega⟩
    subst hj
    have e : (D ++ (pre ++ ('<' :: (body' ++ ['>'])))) ++ z
        = D ++ (pre ++ (('<' :: (body' ++ ['>'])) ++ z)) := by simp
    rw [e, List.drop_append] at hm ⊢
    by_cases h2 : j < pre.length
    · exfalso
      rw [List.drop_append_of_le_length (by omega)] at hm
      have hq : pre.drop j ≠ [] := by
        intro hc
        have := congrArg List.length hc
        simp only [List.length_drop, List.length_nil] at this
        omega
      have hm' : tagRegMatch (pre.drop j ++ ('<' :: (body' ++ '>' :: z))) = some len := by
        rw [← hm]; simp
      obtain ⟨len', hl'⟩ := tagRegMatch_before_tag _ body body' post z len hq hnot hbody hm'
      rw [hleft (pre.take j) (pre.drop j) (List.take_append_drop j pre).symm hq] at hl'
      exact Option.noConfusion hl'
    · obtain ⟨m, hm2⟩ : ∃ m, j = pre.length + m := ⟨j - pre.length, by omega⟩
      subst hm2
      rw [List.drop_append] at hm ⊢
      have hmlt : m < ('<' :: (body' ++ ['>'])).length := by
        simp only [List.length_append, List.length_cons, List.length_nil] at hi ⊢
        omega
      rw [List.drop_append_of_le_length (by omega)] at hm ⊢
      have hq : ('<' :: (body' ++ ['>'])).drop m ≠ [] := by
        intro hc
        have := congrArg List.length hc
        simp only [List.length_drop, List.length_nil] at this
        omega
      have hlen := tagRegMatch_in_tag (('<' :: (body' ++ ['>'])).take m) _ body' z len hq hnot'
        (List.take_append_drop m _) hm
      refine ⟨?_, ?_⟩
      · rw [hlen]
        simp only [List.length_drop, List.length_append, List.length_cons, List.length_nil] at hmlt ⊢
        omega
      · intro sty hsty
        rw [List.take_left' hlen.symm]
        apply hasDecl_suffix sty (('<' :: (body' ++ ['>'])).take m)
        rw [List.take_append_drop]
        exact hclean sty hsty

theorem loopBody_none (styles : List QString) (st : LoopState)
    (h : loopBody styles st = none) : indexOfTag st.html st.pos = none := by
  unfold loopBody at h
  cases hidx : indexOfTag st.html st.pos with
  | none => rfl
  | some r =>
    rw [hidx] at h
    simp only at h
    split at h <;> exact Option.noConfusion h

theorem loopBody_view (styles : List QString) (st st' : LoopState)
    (h : loopBody styles st = some st') :
    ∃ pre body post,
      st.html.drop st.pos = pre ++ ('<' :: (body ++ '>' :: post)) ∧
      '>' ∉ body ∧ tagBodyMatches body = true ∧
      (∀ p q, pre = p ++ q → q ≠ [] →
        tagRegMatch (q ++ '<' :: (body ++ '>' :: post)) = none) ∧
      st'.html.take st'.pos
        = st.html.take st.pos ++ (pre ++ alterTag styles ('<' :: (body ++ ['>']))) ∧
      st'.html.drop st'.pos = post := by
  obtain ⟨D, pre, body, post, h1, h2, h3, h4, hleft, _, h5, h6, _⟩ := loopBody_some styles st st' h
  have hpos' : st'.pos = (D ++ (pre ++ alterTag styles ('<' :: (body ++ ['>'])))).length := by
    rw [h6, ← h2]; simp only [List.length_append]; omega
  have e : D ++ (pre ++ (alterTag styles ('<' :: (body ++ ['>'])) ++ post))
      = (D ++ (pre ++ alterTag styles ('<' :: (body ++ ['>'])))) ++ post := by simp
  have hD : st.html.take st.pos = D := by
    conv_lhs => rw [h1, ← h2]
    exact List.take_left' rfl
  refine ⟨pre, body, post, ?_, h3, h4, hleft, ?_, ?_⟩
  · conv_lhs => rw [h1, ← h2]
    exact List.drop_left' rfl
  · rw [hD, h5, hpos', e]
    exact List.take_left' rfl
  · rw [h5, hpos', e]
    exact List.drop_left' rfl

theorem Run.clean {styles : List QString} {st r : LoopState} {n : Nat}
    (h : Run styles st r n) (hn : ∀ a ∈ styles, ∀ c ∈ a, isSep c = false) :
    (∀ sty ∈ styles, followsSemicolon sty (st.html.drop st.pos) = false) →
    CleanUpTo styles (st.html.take st.pos) →
    ∀ i len, tagRegMatch (r.html.drop i) = some len →
      ∀ sty ∈ styles, hasDecl sty ((r.html.drop i).take len) = false := by
  induction h with
  | exit st hlt =>
    intro _ hD i len hm
    have htake : st.html.take st.pos = st.html := List.take_of_length_le (by omega)
    rw [htake] at hD
    have hi : i < st.html.length := by
      by_contra hc
      rw [List.drop_eq_nil_of_le (by omega)] at hm
      exact Option.noConfusion hm
    have := hD [] i len hi (by rw [List.append_nil]; exact hm)
    rw [List.append_nil] at this
    exact this.2
  | brk st hlt hb =>
    intro _ hD i len hm
    have hnone := loopBody_none styles st hb
    by_cases hi : i < st.pos
    · have hlen : (st.html.take st.pos).length = st.pos := by
        rw [List.length_take]; omega
      have := hD (st.html.drop st.pos) i len (by omega)
        (by rw [List.take_append_drop]; exact hm)
      rw [List.take_append_drop] at this
      exact this.2
    · exfalso
      obtain ⟨j, hj⟩ : ∃ j, i = st.pos + j := ⟨i - st.pos, by omega⟩
      have hsplit : st.html.drop st.pos
          = (st.html.drop st.pos).take j ++ st.html.drop i := by
        rw [hj, ← List.drop_drop, List.take_append_drop]
      rw [searchTag_none _ _ hnone _ _ hsplit] at hm
      exact Option.noConfusion hm
  | step st st' r n _ hb _ ih =>
    intro hocc hD
    obtain ⟨pre, body, post, h1, h2, h3, hleft, h4, h5⟩ := loopBody_view styles st st' hb
    obtain ⟨body', hb1, hsub⟩ := alterTag_tag styles body
    apply ih
    · intro sty hsty
      have := hocc sty hsty
      rw [h1] at this
      rw [h5]
      apply occurs_suffix _ (pre ++ ('<' :: (body ++ ['>'])))
      have e : (pre ++ ('<' :: (body ++ ['>']))) ++ post
          = pre ++ ('<' :: (body ++ '>' :: post)) := by simp
      rw [e]
      exact this
    · rw [h4, hb1]
      apply CleanUpTo_step styles _ pre body body' post hD h2 h3 hleft hsub
      have htagfree : ∀ a ∈ styles, followsSemicolon a ('<' :: (body ++ ['>'])) = false := by
        intro a ha
        have h0 := hocc a ha
        rw [h1] at h0
        have h0' := occurs_suffix _ pre _ h0
        cases hx : followsSemicolon a ('<' :: (body ++ ['>'])) with
        | false => rfl
        | true =>
          exfalso
          have := occurs_extend _ _ post hx
          have e : ('<' :: (body ++ ['>'])) ++ post = '<' :: (body ++ '>' :: post) := by simp
          rw [e, h0'] at this
          exact Bool.noConfusion this
      intro sty hsty
      rw [← hb1]
      exact (alterTag_noDecl styles hn styles _ htagfree).2.2 sty hsty hsty

/-- C1 (counterexample): with the one style name `color`, a plain CSS
identifier, `removeStyles` turns `<p style="color:red;color:blue;">` into
`<p style="color:blue;">`. `tagReg` matches the whole of that tag, and it still
holds the declaration `color:blue;` behind a double quote. -/
theorem removeStyles_leaves_declaration :
    isPlainName "color".toList = true
    ∧ removeStyles ["color".toList] "<p style=\"color:red;color:blue;\">".toList
        = some (true, "<p style=\"color:blue;\">".toList)
    ∧ tagRegMatch ("<p style=\"color:blue;\">".toList.drop 0) = some 23
    ∧ hasDecl "color".toList (("<p style=\"color:blue;\">".toList.drop 0).take 23) = true := by
  decide

/-- C1 (amended): let every configured style name be a plain CSS identifier
and let no style name stand in the HTML directly behind a semicolon and in
front of a colon. Then `removeStyles` returns, and in the HTML it leaves no
match of `tagReg`, at whatever index it starts, holds a declaration
`name:value;` of a listed name behind whitespace or a double quote. -/
theorem removeStyles_strips_styles (styles : List QString) (html : QString)
    (hplain : ∀ sty ∈ styles, isPlainName sty = true)
    (hfree : ∀ sty ∈ styles, followsSemicolon sty html = false) :
    ∃ changed html', removeStyles styles html = some (changed, html') ∧
      ∀ i len, tagRegMatch (html'.drop i) = some len →
        ∀ sty ∈ styles, hasDecl sty ((html'.drop i).take len) = false := by
  by_cases hs : styles.isEmpty = true
  · refine ⟨false, html, by simp [removeStyles, hs], ?_⟩
    intro i len _ sty hsty
    rw [List.isEmpty_iff] at hs
    rw [hs] at hsty
    simp at hsty
  · obtain ⟨r, n, h1, h2, _⟩ := whileLoop_run styles html.length (initState html)
      (by simp [initState])
    refine ⟨r.changed, r.html, by simp [removeStyles, hs, h1], ?_⟩
    apply h2.clean (fun a ha => isPlainName_nonsep a (hplain a ha))
    · simpa [initState] using hfree
    · intro z i len hi
      simp [initState] at hi

/-- C1 (witness): the amended claim at the style `color` and the HTML
`<p style="color:red; color:blue;">`. -/
theorem removeStyles_strips_styles_witness :
    ∃ changed html', removeStyles ["color".toList]
        "<p style=\"color:red; color:blue;\">".toList = some (changed, html') ∧
      ∀ i len, tagRegMatch (html'.drop i) = some len →
        ∀ sty ∈ ["color".toList], hasDecl sty ((html'.drop i).take len) = false :=
  removeStyles_strips_styles ["color".toList] "<p style=\"color:red; color:blue;\">".toList
    (by decide) (by decide)

/-! ## The clipboard handlers -/

theorem alterHtmlMimeData_url (env : Env) (v v' : VWebView) (cb : QClipboard)
    (mime : QMimeData) (target : QString) (h : v.url = v'.url) :
    alterHtmlMimeData env v cb mime target = alterHtmlMimeData env v' cb mime target := by
  simp only [alterHtmlMimeData, h]

/-- C2: a clipboard change that passes the guards (the view has the focus, the
mode is `Clipboard`, the application owns the clipboard) is dispatched on the
two flags. With `m_afterCopyImage` set the clipboard is what
`removeHtmlFromImageData` leaves, so its HTML is the HTML it had or none, and
`alterHtmlAsTarget` has no part in it. Otherwise the clipboard is what
`alterHtmlMimeData` leaves for the target in `m_copyTarget`, which is the data
of the action for a view that comes out of `handleCopyAsAction` or
`handleCopyAllAsAction`. In both cases `m_copyTarget` is empty and
`m_afterCopyImage` is false afterwards. -/
theorem handleClipboardChanged_dispatch (env : Env) (v : VWebView) (cb : QClipboard)
    (hfocus : v.hasFocus = true) (howns : cb.ownsClipboard = true) :
    (v.m_afterCopyImage = true →
        (handleClipboardChanged env v cb Mode.Clipboard).2
            = removeHtmlFromImageData cb cb.mimeData
        ∧ ((handleClipboardChanged env v cb Mode.Clipboard).2.mimeData.html = cb.mimeData.html
            ∨ (handleClipboardChanged env v cb Mode.Clipboard).2.mimeData.html = none))
    ∧ (v.m_afterCopyImage = false →
        (handleClipboardChanged env v cb Mode.Clipboard).2
            = alterHtmlMimeData env v cb cb.mimeData v.m_copyTarget)
    ∧ (handleClipboardChanged env v cb Mode.Clipboard).1.m_copyTarget = []
    ∧ (handleClipboardChanged env v cb Mode.Clipboard).1.m_afterCopyImage = false
    ∧ (∀ act : QAction,
        (handleCopyAsAction v (some act)).m_copyTarget = act.data
        ∧ (handleCopyAllAsAction v (some act)).m_copyTarget = act.data
        ∧ (v.m_afterCopyImage = false →
            (handleClipboardChanged env (handleCopyAsAction v (some act)) cb Mode.Clipboard).2
                = alterHtmlMimeData env v cb cb.mimeData act.data
            ∧ (handleClipboardChanged env (handleCopyAllAsAction v (some act)) cb
                  Mode.Clipboard).2
                = alterHtmlMimeData env v cb cb.mimeData act.data)) := by
  refine ⟨?_, ?_, ?_, ?_, ?_⟩
  · intro hflag
    have h1 : (handleClipboardChanged env v cb Mode.Clipboard).2
        = removeHtmlFromImageData cb cb.mimeData := by
      simp [handleClipboardChanged, hfocus, howns, hflag]
    rw [h1]
    refine ⟨rfl, ?_⟩
    unfold removeHtmlFromImageData
    split
    · exact Or.inl rfl
    · split
      · exact Or.inr rfl
      · exact Or.inl rfl
  · intro hflag
    simp only [handleClipboardChanged, hfocus, howns, hflag]
    exact alterHtmlMimeData_url env _ _ cb _ _ rfl
  · simp only [handleClipboardChanged, hfocus, howns]
    cases v.m_afterCopyImage <;> rfl
  · simp only [handleClipboardChanged, hfocus, howns]
    cases hf : v.m_afterCopyImage <;> simp [hf]
  · intro act
    refine ⟨rfl, rfl, ?_⟩
    intro hflag
    constructor
    · simp only [handleClipboardChanged, handleCopyAsAction, VWebView.triggerPageAction,
        hfocus, howns, hflag]
      exact alterHtmlMimeData_url env _ _ cb _ _ rfl
    · simp only [handleClipboardChanged, handleCopyAllAsAction, VWebView.triggerPageAction,
        hfocus, howns, hflag]
      exact alterHtmlMimeData_url env _ _ cb _ _ rfl

/-- C2 (witness): the sample view has the focus, the application owns the
sample clipboard, and the change is dispatched as the claim says. -/
theorem handleClipboardChanged_dispatch_witness :
    sampleView.hasFocus = true ∧ sampleClipboard.ownsClipboard = true
    ∧ (handleClipboardChanged sampleEnv sampleView sampleClipboard Mode.Clipboard).1.m_copyTarget
        = []
    ∧ (handleClipboardChanged sampleEnv sampleView sampleClipboard
          Mode.Clipboard).1.m_afterCopyImage = false :=
  ⟨rfl, rfl,
    (handleClipboardChanged_dispatch sampleEnv sampleView sampleClipboard rfl rfl).2.2.1,
    (handleClipboardChanged_dispatch sampleEnv sampleView sampleClipboard rfl rfl).2.2.2.1⟩

/-- C3 (counterexample): a view without the focus whose `m_afterCopyImage` was
set by `copyImage` keeps the flag, and its copy target, through a clipboard
change; the flag then decides how a later clipboard change, which the view
receives with the focus, is handled: the HTML of the copied image is removed,
which `alterHtmlMimeData` would not do. -/
theorem handleClipboardChanged_keeps_flags :
    (copyImage sampleEnv false { sampleView with hasFocus := false } sampleClipboard).1.m_afterCopyImage
        = true
    ∧ (handleClipboardChanged sampleEnv
          (copyImage sampleEnv false { sampleView with hasFocus := false } sampleClipboard).1
          sampleClipboard Mode.Clipboard).1.m_afterCopyImage = true
    ∧ (handleClipboardChanged sampleEnv
          (copyImage sampleEnv false { sampleView with hasFocus := false } sampleClipboard).1
          sampleClipboard Mode.Clipboard).1.m_copyTarget = "Word".toList
    ∧ (handleClipboardChanged sampleEnv
          { (handleClipboardChanged sampleEnv
              (copyImage sampleEnv false { sampleView with hasFocus := false }
                sampleClipboard).1
              sampleClipboard Mode.Clipboard).1 with hasFocus := true }
          sampleImageClipboard Mode.Clipboard).2.mimeData.html = none
    ∧ (alterHtmlMimeData sampleEnv sampleView sampleImageClipboard
          sampleImageClipboard.mimeData "Word".toList).mimeData.html
        = some "<img src=\"a.png\">".toList := by
  decide

/-- C3 (amended): a clipboard change that passes the guards (the view has the
focus, the mode is `Clipboard`, the application owns the clipboard) leaves
`m_afterCopyImage` false and `m_copyTarget` empty; a clipboard change that
fails a guard leaves the view, with both flags, and the clipboard as they
were. -/
theorem handleClipboardChanged_flags (env : Env) (v : VWebView) (cb : QClipboard)
    (mode : Mode) :
    (v.hasFocus = true ∧ mode = Mode.Clipboard ∧ cb.ownsClipboard = true →
        (handleClipboardChanged env v cb mode).1.m_afterCopyImage = false
        ∧ (handleClipboardChanged env v cb mode).1.m_copyTarget = [])
    ∧ (¬ (v.hasFocus = true ∧ mode = Mode.Clipboard ∧ cb.ownsClipboard = true) →
        handleClipboardChanged env v cb mode = (v, cb)) := by
  constructor
  · rintro ⟨hfocus, hmode, howns⟩
    subst hmode
    simp only [handleClipboardChanged, hfocus, howns]
    cases hf : v.m_afterCopyImage <;> simp [hf]
  · intro h
    unfold handleClipboardChanged
    split
    · rfl
    · split
      · rfl
      · rename_i h1 h2
        exfalso
        apply h
        simp only [Bool.or_eq_true, Bool.not_eq_true', bne_iff_ne, ne_eq, not_or,
          Bool.not_eq_false, not_not] at h1 h2
        exact ⟨h1.1, h1.2, h2⟩

/-- C4: `alterHtmlMimeData` is a silent no-op on unusable input. When the mime
data has no HTML, or carries an image, or the copy target is empty, or
`alterHtmlAsTarget` returns false, the clipboard is left as it was. Otherwise
the clipboard gets the clone of the mime data with the HTML set to the altered
HTML: its HTML is the altered one, its text, URLs and image are those of the
original, and nothing else of the clipboard changes. -/
theorem alterHtmlMimeData_noop_or_alter (env : Env) (v : VWebView) (cb : QClipboard)
    (mime : QMimeData) (target : QString) :
    ((mime.hasHtml = false ∨ mime.hasImage = true ∨ target = []
        ∨ (env.alterHtmlAsTarget v.url (mime.html.getD []) target).1 = false) →
      alterHtmlMimeData env v cb mime target = cb)
    ∧ (¬ (mime.hasHtml = false ∨ mime.hasImage = true ∨ target = []
        ∨ (env.alterHtmlAsTarget v.url (mime.html.getD []) target).1 = false) →
      alterHtmlMimeData env v cb mime target
          = setMimeDataToClipboard cb
              ((cloneMimeData mime).setHtml
                (env.alterHtmlAsTarget v.url (mime.html.getD []) target).2)
      ∧ (alterHtmlMimeData env v cb mime target).mimeData.html
          = some (env.alterHtmlAsTarget v.url (mime.html.getD []) target).2
      ∧ (alterHtmlMimeData env v cb mime target).mimeData.text = mime.text
      ∧ (alterHtmlMimeData env v cb mime target).mimeData.urls = mime.urls
      ∧ (alterHtmlMimeData env v cb mime target).mimeData.imageData = mime.imageData
      ∧ (alterHtmlMimeData env v cb mime target).ownsClipboard = cb.ownsClipboard
      ∧ (alterHtmlMimeData env v cb mime target).properties = cb.properties) := by
  constructor
  · intro h
    unfold alterHtmlMimeData
    split
    · rfl
    · dsimp only
      split
      · rfl
      · rename_i h1 h2
        exfalso
        simp only [Bool.or_eq_true, Bool.not_eq_true', List.isEmpty_iff, not_or,
          Bool.not_eq_false] at h1 h2
        rcases h with h | h | h | h
        · rw [h] at h1; exact Bool.noConfusion h1.1.1
        · exact h1.1.2 h
        · exact h1.2 h
        · rw [h] at h2; exact Bool.noConfusion h2
  · intro h
    have h' : alterHtmlMimeData env v cb mime target
        = setMimeDataToClipboard cb
            ((cloneMimeData mime).setHtml
              (env.alterHtmlAsTarget v.url (mime.html.getD []) target).2) := by
      unfold alterHtmlMimeData
      split
      · rename_i h1
        exfalso
        apply h
        simp only [Bool.or_eq_true, Bool.not_eq_true', List.isEmpty_iff] at h1
        rcases h1 with (h1 | h1) | h1
        · exact Or.inl h1
        · exact Or.inr (Or.inl h1)
        · exact Or.inr (Or.inr (Or.inl h1))
      · dsimp only
        split
        · rename_i h2
          exfalso
          apply h
          simp only [Bool.not_eq_true'] at h2
          exact Or.inr (Or.inr (Or.inr h2))
        · rfl
    rw [h']
    exact ⟨rfl, rfl, rfl, rfl, rfl, rfl, rfl⟩

/-- C5: `removeHtmlFromImageData` removes the HTML from a copied image. For
mime data with an image and HTML the clipboard holds mime data afterwards
whose image is the original image and which has no HTML, no text and no URL;
for mime data without an image, or with an image and without HTML, the
clipboard is left as it was. -/
theorem removeHtmlFromImageData_image_only (cb : QClipboard) (mime : QMimeData) :
    (mime.hasImage = true ∧ mime.hasHtml = true →
      (removeHtmlFromImageData cb mime).mimeData.imageData = mime.imageData
      ∧ (removeHtmlFromImageData cb mime).mimeData.hasImage = true
      ∧ (removeHtmlFromImageData cb mime).mimeData.hasHtml = false
      ∧ (removeHtmlFromImageData cb mime).mimeData.hasText = false
      ∧ (removeHtmlFromImageData cb mime).mimeData.hasUrls = false
      ∧ (removeHtmlFromImageData cb mime).ownsClipboard = cb.ownsClipboard
      ∧ (removeHtmlFromImageData cb mime).properties = cb.properties)
    ∧ (mime.hasImage = false ∨ mime.hasHtml = false → removeHtmlFromImageData cb mime = cb) := by
  constructor
  · rintro ⟨h1, h2⟩
    simp only [removeHtmlFromImageData, h1, h2]
    exact ⟨rfl, h1, rfl, rfl, rfl, rfl, rfl⟩
  · intro h
    unfold removeHtmlFromImageData
    split
    · rfl
    · split
      · rename_i h1 h2
        exfalso
        rcases h with h | h
        · rw [h] at h1; simp at h1
        · rw [h] at h2; exact Bool.noConfusion h2
      · rfl

theorem property_setProperty (cb : QClipboard) (name : QString) (value : Bool) :
    (cb.setProperty name value).property name = value := by
  simp [QClipboard.setProperty, QClipboard.property, List.find?]

/-- C6: `handleCopyImageUrlAction` changes the copied image URL to
only-space-encoded text and marks it. The handler replaces the mime data of
the clipboard exactly when the application owns the clipboard, the mime data
has text and the URL list is one URL, a local file whose encoded form is the
text and whose space-only-encoded form is not; the property
`CopiedImageURLAltered` is true afterwards exactly in that case, and exactly
when the mime data is not the one it was. The new mime data has the same URL
list, the space-only-encoded form as its text, and nothing else. In every
other case the mime data is unchanged and the property is false. -/
theorem handleCopyImageUrlAction_marks_altered (cb : QClipboard) :
    (∀ url : QUrl,
      (cb.ownsClipboard = true ∧ cb.mimeData.hasText = true ∧ cb.mimeData.urls = [url]
        ∧ url.isLocalFile = true ∧ url.toEncoded = cb.mimeData.text.getD []
        ∧ url.toStringEncodeSpaces ≠ cb.mimeData.text.getD []) →
      (handleCopyImageUrlAction cb).mimeData
          = { text := some url.toStringEncodeSpaces, html := none, urls := cb.mimeData.urls,
              imageData := none }
      ∧ (handleCopyImageUrlAction cb).mimeData ≠ cb.mimeData
      ∧ (handleCopyImageUrlAction cb).property c_ClipboardPropertyMark = true)
    ∧ ((¬ ∃ url : QUrl,
        cb.ownsClipboard = true ∧ cb.mimeData.hasText = true ∧ cb.mimeData.urls = [url]
        ∧ url.isLocalFile = true ∧ url.toEncoded = cb.mimeData.text.getD []
        ∧ url.toStringEncodeSpaces ≠ cb.mimeData.text.getD []) →
      (handleCopyImageUrlAction cb).mimeData = cb.mimeData
      ∧ (handleCopyImageUrlAction cb).property c_ClipboardPropertyMark = false)
    ∧ ((handleCopyImageUrlAction cb).property c_ClipboardPropertyMark = true ↔
        (handleCopyImageUrlAction cb).mimeData ≠ cb.mimeData)
    ∧ (handleCopyImageUrlAction cb).ownsClipboard = cb.ownsClipboard := by
  have hyes : ∀ url : QUrl,
      (cb.ownsClipboard = true ∧ cb.mimeData.hasText = true ∧ cb.mimeData.urls = [url]
        ∧ url.isLocalFile = true ∧ url.toEncoded = cb.mimeData.text.getD []
        ∧ url.toStringEncodeSpaces ≠ cb.mimeData.text.getD []) →
      (handleCopyImageUrlAction cb).mimeData
          = { text := some url.toStringEncodeSpaces, html := none, urls := cb.mimeData.urls,
              imageData := none }
      ∧ (handleCopyImageUrlAction cb).mimeData ≠ cb.mimeData
      ∧ (handleCopyImageUrlAction cb).property c_ClipboardPropertyMark = true := by
    rintro url ⟨h1, h2, h3, h4, h5, h6⟩
    have hval : handleCopyImageUrlAction cb
        = (setMimeDataToClipboard (cb.setProperty c_ClipboardPropertyMark false)
            ((QMimeData.new.setUrls [url]).setText url.toStringEncodeSpaces)).setProperty
              c_ClipboardPropertyMark true := by
      simp [handleCopyImageUrlAction, QClipboard.setProperty, QMimeData.hasUrls, h1, h2, h3, h4,
        h5, h6]
    rw [hval]
    refine ⟨?_, ?_, property_setProperty _ _ _⟩
    · simp [setMimeDataToClipboard, QClipboard.setProperty, QMimeData.setText,
        QMimeData.setUrls, QMimeData.new, h3]
    · intro he
      have ht := congrArg QMimeData.text he
      simp only [setMimeDataToClipboard, QClipboard.setProperty, QMimeData.setText] at ht
      rw [← ht] at h6
      simp at h6
  have hno : (¬ ∃ url : QUrl,
        cb.ownsClipboard = true ∧ cb.mimeData.hasText = true ∧ cb.mimeData.urls = [url]
        ∧ url.isLocalFile = true ∧ url.toEncoded = cb.mimeData.text.getD []
        ∧ url.toStringEncodeSpaces ≠ cb.mimeData.text.getD []) →
      handleCopyImageUrlAction cb = cb.setProperty c_ClipboardPropertyMark false := by
    intro h
    unfold handleCopyImageUrlAction
    simp only
    split
    · rename_i hc
      split
      · rename_i url hurls
        split
        · rename_i hl
          split
          · rename_i hs
            exfalso
            apply h
            simp only [QClipboard.setProperty, Bool.and_eq_true] at hc
            simp only [Bool.and_eq_true, beq_iff_eq] at hl
            refine ⟨url, hc.1.1, hc.1.2, hurls, hl.1, hl.2, ?_⟩
            simpa using hs
          · rfl
        · rfl
      · rfl
    · rfl
  have hown : (handleCopyImageUrlAction cb).ownsClipboard = cb.ownsClipboard := by
    by_cases hex : ∃ url : QUrl,
        cb.ownsClipboard = true ∧ cb.mimeData.hasText = true ∧ cb.mimeData.urls = [url]
        ∧ url.isLocalFile = true ∧ url.toEncoded = cb.mimeData.text.getD []
        ∧ url.toStringEncodeSpaces ≠ cb.mimeData.text.getD []
    · obtain ⟨url, h1, h2, h3, h4, h5, h6⟩ := hex
      have hval : handleCopyImageUrlAction cb
          = (setMimeDataToClipboard (cb.setProperty c_ClipboardPropertyMark false)
              ((QMimeData.new.setUrls [url]).setText url.toStringEncodeSpaces)).setProperty
                c_ClipboardPropertyMark true := by
        simp [handleCopyImageUrlAction, QClipboard.setProperty, QMimeData.hasUrls, h1, h2, h3,
          h4, h5, h6]
      rw [hval]
      rfl
    · rw [hno hex]
      rfl
  refine ⟨hyes, ?_, ?_, hown⟩
  · intro h
    rw [hno h]
    exact ⟨rfl, property_setProperty _ _ _⟩
  · by_cases hex : ∃ url : QUrl,
        cb.ownsClipboard = true ∧ cb.mimeData.hasText = true ∧ cb.mimeData.urls = [url]
        ∧ url.isLocalFile = true ∧ url.toEncoded = cb.mimeData.text.getD []
        ∧ url.toStringEncodeSpaces ≠ cb.mimeData.text.getD []
    · obtain ⟨url, hu⟩ := hex
      obtain ⟨_, h2, h3⟩ := hyes url hu
      exact ⟨fun _ => h2, fun _ => h3⟩
    · rw [hno hex]
      constructor
      · intro hp
        rw [property_setProperty] at hp
        exact Bool.noConfusion hp
      · intro hne
        exact absurd rfl hne

/-! ## Hiding the actions that are of no use -/

theorem modifyAt_getElem? {α : Type} (f : α → α) :
    ∀ (n : Nat) (l : List α) (i : Nat),
      (modifyAt f n l)[i]? = if i = n then l[i]?.map f else l[i]?
  | _, [], i => by simp [modifyAt]
  | 0, a :: l, 0 => by simp [modifyAt]
  | 0, a :: l, i + 1 => by simp [modifyAt]
  | n + 1, a :: l, 0 => by simp [modifyAt]
  | n + 1, a :: l, i + 1 => by
    simp only [modifyAt, List.getElem?_cons_succ, Nat.add_right_cancel_iff]
    exact modifyAt_getElem? f n l i

theorem modifyAt_length {α : Type} (f : α → α) :
    ∀ (n : Nat) (l : List α), (modifyAt f n l).length = l.length
  | _, [] => by simp [modifyAt]
  | 0, a :: l => by simp [modifyAt]
  | n + 1, a :: l => by simp [modifyAt, modifyAt_length f n l]

theorem hide_foldl (L : List (Option Nat)) :
    ∀ g : Gui,
      (L.foldl (fun g it => match it with
          | some a => g.setVisible a false
          | none => g) g).menus = g.menus
      ∧ ∀ id : Nat,
        (L.foldl (fun g it => match it with
            | some a => g.setVisible a false
            | none => g) g).actions[id]?
          = if some id ∈ L then g.actions[id]?.map (fun act => { act with visible := false })
            else g.actions[id]? := by
  induction L with
  | nil => intro g; simp
  | cons it rest ih =>
    intro g
    rw [List.foldl_cons]
    obtain ⟨h1, h2⟩ := ih (match it with
      | some a => g.setVisible a false
      | none => g)
    refine ⟨?_, ?_⟩
    · rw [h1]
      cases it <;> rfl
    · intro id
      rw [h2 id]
      cases it with
      | none => simp
      | some a =>
        simp only [Gui.setVisible, modifyAt_getElem?, List.mem_cons, Option.some.injEq]
        by_cases hid : id = a
        · subst hid
          by_cases hr : some id ∈ rest
          · simp only [hr, if_true, true_or, Option.map_map]
            cases g.actions[id]? <;> rfl
          · simp [hr]
        · simp [hid]

/-- C8: `hideUnusedActions` hides exactly the actions that are of no use. The
menu keeps its list of actions, and every action keeps its place on the heap
and everything but its visibility. An action of the menu whose text is what
`QWebEnginePage::tr` gives for `&Back`, `&Forward` or `&Reload` is invisible
afterwards, and so is each of the page actions `ViewSource`,
`DownloadImageToDisk` and `DownloadLinkToDisk` that is not null; a null page
action is passed over. Every other action is as it was. -/
theorem hideUnusedActions_hides (env : Env) (g : Gui) (p_menu : Nat) :
    (hideUnusedActions env g p_menu).menus = g.menus
    ∧ (hideUnusedActions env g p_menu).actions.length = g.actions.length
    ∧ (∀ (id : Nat) (act : QAction), g.actions[id]? = some act →
        ∃ act', (hideUnusedActions env g p_menu).actions[id]? = some act'
          ∧ act'.text = act.text ∧ act'.data = act.data ∧ act'.toolTip = act.toolTip
          ∧ act'.separator = act.separator ∧ act'.menu = act.menu
          ∧ (act'.visible = false ∨ act'.visible = act.visible))
    ∧ (∀ (id : Nat) (act : QAction), g.actions[id]? = some act →
        id ∈ g.menuActions p_menu →
        (act.text = env.tr "&Back".toList ∨ act.text = env.tr "&Forward".toList
          ∨ act.text = env.tr "&Reload".toList) →
        (hideUnusedActions env g p_menu).actions[id]? = some { act with visible := false })
    ∧ (∀ (wa : WebAction) (id : Nat) (act : QAction),
        (wa = WebAction.ViewSource ∨ wa = WebAction.DownloadImageToDisk
          ∨ wa = WebAction.DownloadLinkToDisk) →
        env.pageAction wa = some id → g.actions[id]? = some act →
        (hideUnusedActions env g p_menu).actions[id]? = some { act with visible := false })
    ∧ (∀ id : Nat,
        ¬ (id ∈ g.menuActions p_menu
            ∧ (g.actionText id = env.tr "&Back".toList ∨ g.actionText id = env.tr "&Forward".toList
              ∨ g.actionText id = env.tr "&Reload".toList)) →
        env.pageAction WebAction.ViewSource ≠ some id →
        env.pageAction WebAction.DownloadImageToDisk ≠ some id →
        env.pageAction WebAction.DownloadLinkToDisk ≠ some id →
        (hideUnusedActions env g p_menu).actions[id]? = g.actions[id]?) := by
  have key := hide_foldl
    ((((List.filter (fun it => [env.tr "&Back".toList, env.tr "&Forward".toList,
          env.tr "&Reload".toList].contains (g.actionText it)) (g.menuActions p_menu)).map some
        ++ [env.pageAction WebAction.ViewSource])
        ++ [env.pageAction WebAction.DownloadImageToDisk])
        ++ [env.pageAction WebAction.DownloadLinkToDisk]) g
  have hdef : hideUnusedActions env g p_menu
      = ((((List.filter (fun it => [env.tr "&Back".toList, env.tr "&Forward".toList,
          env.tr "&Reload".toList].contains (g.actionText it)) (g.menuActions p_menu)).map some
        ++ [env.pageAction WebAction.ViewSource])
        ++ [env.pageAction WebAction.DownloadImageToDisk])
        ++ [env.pageAction WebAction.DownloadLinkToDisk]).foldl
          (fun g it => match it with
            | some a => g.setVisible a false
            | none => g) g := rfl
  rw [← hdef] at key
  obtain ⟨k1, k2⟩ := key
  have hmem : ∀ id : Nat,
      some id ∈ (((List.filter (fun it => [env.tr "&Back".toList, env.tr "&Forward".toList,
          env.tr "&Reload".toList].contains (g.actionText it)) (g.menuActions p_menu)).map some
        ++ [env.pageAction WebAction.ViewSource])
        ++ [env.pageAction WebAction.DownloadImageToDisk])
        ++ [env.pageAction WebAction.DownloadLinkToDisk]
      ↔ ((id ∈ g.menuActions p_menu
            ∧ (g.actionText id = env.tr "&Back".toList ∨ g.actionText id = env.tr "&Forward".toList
              ∨ g.actionText id = env.tr "&Reload".toList))
          ∨ env.pageAction WebAction.ViewSource = some id
          ∨ env.pageAction WebAction.DownloadImageToDisk = some id
          ∨ env.pageAction WebAction.DownloadLinkToDisk = some id) := by
    intro id
    simp only [List.mem_append, List.mem_map, List.mem_filter, List.mem_singleton,
      List.contains_eq_any_beq, List.any_cons, List.any_nil, Bool.or_false, Bool.or_eq_true,
      beq_iff_eq, Option.some.injEq, exists_eq_right]
    constructor
    · rintro (((h | h) | h) | h)
      · exact Or.inl ⟨h.1, by
          rcases h.2 with e | e | e
          · exact Or.inl e
          · exact Or.inr (Or.inl e)
          · exact Or.inr (Or.inr e)⟩
      · exact Or.inr (Or.inl h.symm)
      · exact Or.inr (Or.inr (Or.inl h.symm))
      · exact Or.inr (Or.inr (Or.inr h.symm))
    · rintro (h | h | h | h)
      · exact Or.inl (Or.inl (Or.inl ⟨h.1, by
          rcases h.2 with e | e | e
          · exact Or.inl e
          · exact Or.inr (Or.inl e)
          · exact Or.inr (Or.inr e)⟩))
      · exact Or.inl (Or.inl (Or.inr h.symm))
      · exact Or.inl (Or.inr h.symm)
      · exact Or.inr h.symm
  have htext : ∀ (id : Nat) (act : QAction), g.actions[id]? = some act →
      g.actionText id = act.text := by
    intro id act h
    simp [Gui.actionText, h]
  refine ⟨k1, ?_, ?_, ?_, ?_, ?_⟩
  · have hlen : ∀ (L : List (Option Nat)) (g : Gui),
        (L.foldl (fun g it => match it with
          | some a => g.setVisible a false
          | none => g) g).actions.length = g.actions.length := by
      intro L
      induction L with
      | nil => intro g; rfl
      | cons it rest ih =>
        intro g
        rw [List.foldl_cons, ih]
        cases it with
        | none => rfl
        | some a => simp [Gui.setVisible, modifyAt_length]
    rw [hdef]
    exact hlen _ g
  · intro id act hact
    rw [k2 id, hact]
    split
    · exact ⟨_, rfl, rfl, rfl, rfl, rfl, rfl, Or.inl rfl⟩
    · exact ⟨_, rfl, rfl, rfl, rfl, rfl, rfl, Or.inr rfl⟩
  · intro id act hact hin htxt
    rw [k2 id, hact, if_pos]
    · rfl
    · rw [hmem]
      left
      rw [htext id act hact]
      exact ⟨hin, htxt⟩
  · intro wa id act hwa hpage hact
    rw [k2 id, hact, if_pos]
    · rfl
    · rw [hmem]
      right
      rcases hwa with e | e | e
      · left; rw [← e]; exact hpage
      · right; left; rw [← e]; exact hpage
      · right; right; rw [← e]; exact hpage
  · intro id h1 h2 h3 h4
    rw [k2 id, if_neg]
    rw [hmem]
    rintro (h | h | h | h)
    · exact h1 h
    · exact h2 h
    · exact h3 h
    · exact h4 h

/-! ## The menus of the copy targets -/

theorem modifyAt_append_last {α : Type} (f : α → α) (x : α) :
    ∀ l : List α, modifyAt f l.length (l ++ [x]) = l ++ [f x]
  | [] => rfl
  | a :: l => by
    show a :: modifyAt f l.length (l ++ [x]) = a :: (l ++ [f x])
    rw [modifyAt_append_last f x l]

theorem modifyAt_append_left {α : Type} (f : α → α) (r : List α) :
    ∀ (n : Nat) (l : List α), n < l.length → modifyAt f n (l ++ r) = modifyAt f n l ++ r
  | _, [], h => by simp at h
  | 0, a :: l, _ => rfl
  | n + 1, a :: l, h => by
    show a :: modifyAt f n (l ++ r) = a :: (modifyAt f n l ++ r)
    rw [modifyAt_append_left f r n l (by simpa using h)]

theorem modifyAt_modifyAt {α : Type} (f k : α → α) :
    ∀ (n : Nat) (l : List α), modifyAt f n (modifyAt k n l) = modifyAt (fun x => f (k x)) n l
  | _, [] => by simp [modifyAt]
  | 0, a :: l => rfl
  | n + 1, a :: l => by
    show a :: modifyAt f n (modifyAt k n l) = a :: modifyAt (fun x => f (k x)) n l
    rw [modifyAt_modifyAt f k n l]

theorem insertBefore_none (a : Nat) : ∀ l : List Nat, insertBefore none a l = l ++ [a]
  | [] => rfl
  | x :: l => by
    show (if some x = none then a :: x :: l else x :: insertBefore none a l) = x :: (l ++ [a])
    rw [if_neg (by simp), insertBefore_none a l]

theorem insertBefore_some (b a : Nat) (l2 : List Nat) :
    ∀ l1 : List Nat, b ∉ l1 → insertBefore (some b) a (l1 ++ b :: l2) = l1 ++ a :: b :: l2
  | [], _ => by simp [insertBefore]
  | x :: l1, h => by
    have hx : x ≠ b := fun e => h (by rw [e]; exact List.mem_cons_self _ _)
    show (if some x = some b then a :: x :: (l1 ++ b :: l2)
        else x :: insertBefore (some b) a (l1 ++ b :: l2)) = x :: (l1 ++ a :: b :: l2)
    rw [if_neg (by simpa using hx), insertBefore_some b a l2 l1
      (fun hm => h (List.mem_cons_of_mem _ hm))]

theorem insertAction_fresh (g : Gui) (m : Nat) (before : Option Nat) (a : Nat)
    (hfresh : a ∉ g.menuActions m) :
    g.insertAction m before (some a)
      = { actions := g.actions,
          menus := modifyAt
            (fun menu => { menu with actions := insertBefore before a menu.actions }) m g.menus } := by
  have : (g.menuActions m).contains a = false := by
    simpa using hfresh
  simp only [Gui.insertAction, this]
  rfl

theorem addTargetActions_spec (env : Env) (toolTip : QString) :
    ∀ (targets : List QString) (A : List QAction) (ms : List QMenu) (sub : QMenu),
      (∀ id ∈ sub.actions, id < A.length) →
      addTargetActions env toolTip ms.length targets { actions := A, menus := ms ++ [sub] }
        = { actions := A ++ targets.map (targetAction env toolTip),
            menus := ms ++
              [{ sub with actions := sub.actions ++ List.range' A.length targets.length }] }
  | [], A, ms, sub, _ => by
    simp [addTargetActions]
  | t :: rest, A, ms, sub, hsub => by
    have hfresh : A.length ∉ sub.actions := fun hm => absurd (hsub _ hm) (Nat.lt_irrefl _)
    have h1 : ((({ actions := A, menus := ms ++ [sub] } : Gui).newAction t).1.setData
          A.length t).setToolTip A.length (env.arg (env.tr toolTip) t)
        = { actions := A ++ [targetAction env toolTip t], menus := ms ++ [sub] } := by
      simp only [Gui.newAction, Gui.setData, Gui.setToolTip, modifyAt_append_last]
      rfl
    have h2 : ({ actions := A ++ [targetAction env toolTip t], menus := ms ++ [sub] } : Gui).addAction
          ms.length A.length
        = { actions := A ++ [targetAction env toolTip t],
            menus := ms ++ [{ sub with actions := sub.actions ++ [A.length] }] } := by
      rw [Gui.addAction, insertAction_fresh]
      · simp only [modifyAt_append_last, insertBefore_none]
      · simpa [Gui.menuActions] using hfresh
    have h3 := addTargetActions_spec env toolTip rest (A ++ [targetAction env toolTip t]) ms
      { sub with actions := sub.actions ++ [A.length] }
      (by
        intro id hid
        simp only [List.mem_append, List.mem_singleton] at hid
        simp only [List.length_append, List.length_cons, List.length_nil]
        rcases hid with hid | hid
        · have := hsub id hid; omega
        · omega)
    simp only [addTargetActions]
    simp only [Gui.newAction] at h1 ⊢
    rw [h1, h2, h3]
    simp [List.range'_succ]

theorem menuActions_mk (A : List QAction) (MS : List QMenu) (m : Nat) (menu : QMenu)
    (h : MS[m]? = some menu) : (Gui.mk A MS).menuActions m = menu.actions := by
  simp [Gui.menuActions, h]

theorem addSeparator_state (A : List QAction) (MS : List QMenu) (m : Nat) (pm : QMenu)
    (hpm : MS[m]? = some pm) (hfresh : A.length ∉ pm.actions) :
    (Gui.mk A MS).addSeparator m
      = { actions := A ++
            [{ text := [], data := [], toolTip := [], visible := true, separator := true,
               menu := none }],
          menus := modifyAt (fun menu => { menu with actions := menu.actions ++ [A.length] })
            m MS } := by
  rw [Gui.addSeparator, Gui.addAction, insertAction_fresh]
  · simp only [insertBefore_none]
  · rw [menuActions_mk _ _ _ _ hpm]
    exact hfresh

theorem addMenu_state (A : List QAction) (MS : List QMenu) (m sub : Nat) (pm sm : QMenu)
    (hpm : MS[m]? = some pm) (hsm : MS[sub]? = some sm) (hfresh : sm.menuAction ∉ pm.actions) :
    (Gui.mk A MS).addMenu m sub
      = { actions := A,
          menus := modifyAt (fun menu => { menu with actions := menu.actions ++ [sm.menuAction] })
            m MS } := by
  have hma : (Gui.mk A MS).menuActionOf sub = some sm.menuAction := by
    simp [Gui.menuActionOf, hsm]
  rw [Gui.addMenu, hma, insertAction_fresh]
  · simp only [insertBefore_none]
  · rw [menuActions_mk _ _ _ _ hpm]
    exact hfresh

theorem getElem?_lt_of_some {α : Type} (l : List α) (n : Nat) (x : α) (h : l[n]? = some x) :
    n < l.length := by
  by_contra hc
  rw [List.getElem?_eq_none (by omega)] at h
  exact Option.noConfusion h

theorem addSeparator_addMenu (A : List QAction) (MS : List QMenu) (sm : QMenu)
    (m : Nat) (pm : QMenu) (hpm : MS[m]? = some pm) (h1 : A.length ∉ pm.actions)
    (h2 : sm.menuAction ∉ pm.actions) (h3 : sm.menuAction ≠ A.length) :
    ((Gui.mk A (MS ++ [sm])).addSeparator m).addMenu m MS.length
      = { actions := A ++
            [{ text := [], data := [], toolTip := [], visible := true, separator := true,
               menu := none }],
          menus := modifyAt
              (fun menu => { menu with actions := menu.actions ++ [A.length] ++ [sm.menuAction] })
              m MS ++ [sm] } := by
  have hlt : m < MS.length := getElem?_lt_of_some _ _ _ hpm
  have hpm1 : (MS ++ [sm])[m]? = some pm := by
    rw [List.getElem?_append_left hlt]
    exact hpm
  rw [addSeparator_state _ _ _ pm hpm1 h1, modifyAt_append_left _ _ _ _ hlt]
  have hlen : (modifyAt (fun menu : QMenu => { menu with actions := menu.actions ++ [A.length] })
      m MS).length = MS.length := modifyAt_length _ _ _
  have hpm2 : (modifyAt (fun menu : QMenu => { menu with actions := menu.actions ++ [A.length] })
      m MS ++ [sm])[m]? = some { pm with actions := pm.actions ++ [A.length] } := by
    rw [List.getElem?_append_left (by rw [hlen]; exact hlt), modifyAt_getElem?, if_pos rfl, hpm]
    rfl
  have hsm : (modifyAt (fun menu : QMenu => { menu with actions := menu.actions ++ [A.length] })
      m MS ++ [sm])[MS.length]? = some sm := by
    rw [← hlen, List.getElem?_concat_length]
  rw [addMenu_state _ _ _ _ _ sm hpm2 hsm]
  · rw [modifyAt_append_left _ _ _ _ (by rw [hlen]; exact hlt), modifyAt_modifyAt]
  · simp only [List.mem_append, List.mem_singleton]
    rintro (h | h)
    · exact h2 h
    · exact h3 h

theorem initCopyAllAsMenu_state (env : Env) (A : List QAction) (MS : List QMenu)
    (p_menu : Nat) (pm : QMenu) (hne : env.getCopyTargetsName ≠ [])
    (hpm : MS[p_menu]? = some pm) (hv : ∀ id ∈ pm.actions, id < A.length) :
    initCopyAllAsMenu env (Gui.mk A MS) p_menu
      = { actions := A ++
            [{ text := env.tr "Copy All As".toList, data := [], toolTip := [], visible := true,
               separator := false, menu := some MS.length }]
            ++ env.getCopyTargetsName.map
                (targetAction env "Copy all content using rules specified by target %1".toList)
            ++ [{ text := [], data := [], toolTip := [], visible := true, separator := true,
                  menu := none }],
          menus := modifyAt
              (fun menu => { menu with actions :=
                menu.actions ++ [A.length + 1 + env.getCopyTargetsName.length] ++ [A.length] })
              p_menu MS
            ++ [{ title := env.tr "Copy All As".toList, toolTipsVisible := true,
                  actions := List.range' (A.length + 1) env.getCopyTargetsName.length,
                  menuAction := A.length }] } := by
  have e1 : env.getCopyTargetsName.isEmpty = false := by
    cases h : env.getCopyTargetsName with
    | nil => exact absurd h hne
    | cons _ _ => rfl
  simp only [initCopyAllAsMenu, e1, Gui.newMenu, Gui.setToolTipsVisible, modifyAt_append_last]
  rw [if_neg (by simp), addTargetActions_spec _ _ _ _ _ _ (by simp)]
  have hA2 : ∀ x : QAction, (A ++ [x] ++ List.map (targetAction env
      "Copy all content using rules specified by target %1".toList)
      env.getCopyTargetsName).length = A.length + 1 + env.getCopyTargetsName.length := by
    intro x
    simp only [List.length_append, List.length_cons, List.length_nil, List.length_map]
  have hA1 : ∀ x : QAction, (A ++ [x]).length = A.length + 1 := by
    intro x
    simp only [List.length_append, List.length_cons, List.length_nil]
  rw [addSeparator_addMenu _ _ _ _ pm hpm]
  · simp only [hA2, hA1, List.nil_append]
  · intro hmem
    have := hv _ hmem
    rw [hA2] at this
    omega
  · intro hmem
    exact absurd (hv _ hmem) (Nat.lt_irrefl _)
  · rw [hA2]
    simp only
    omega

theorem modifyAt_congr {α : Type} (f k : α → α) :
    ∀ (n : Nat) (l : List α), (∀ x, l[n]? = some x → f x = k x) →
      modifyAt f n l = modifyAt k n l
  | _, [], _ => by simp [modifyAt]
  | 0, a :: l, h => by
    show f a :: l = k a :: l
    rw [h a (by simp)]
  | n + 1, a :: l, h => by
    show a :: modifyAt f n l = a :: modifyAt k n l
    rw [modifyAt_congr f k n l (fun x hx => h x (by simpa using hx))]

theorem filter_ne_self (a : Nat) : ∀ l : List Nat, a ∉ l → l.filter (fun x => x != a) = l
  | [], _ => rfl
  | x :: l, h => by
    have hx : x ≠ a := fun e => h (by rw [e]; exact List.mem_cons_self _ _)
    rw [List.filter_cons_of_pos (by simpa using hx),
      filter_ne_self a l (fun hm => h (List.mem_cons_of_mem _ hm))]

theorem removeAction_state (A : List QAction) (MS : List QMenu) (m a : Nat) :
    (Gui.mk A MS).removeAction m (some a)
      = { actions := A,
          menus := modifyAt
            (fun menu => { menu with actions := menu.actions.filter (fun x => x != a) }) m MS } :=
  rfl

theorem insertMenu_remove_insert (A : List QAction) (MS : List QMenu) (sm : QMenu)
    (m : Nat) (pm : QMenu) (a : Nat) (l1 l2 : List Nat) (hpm : MS[m]? = some pm)
    (hM : pm.actions = l1 ++ a :: l2) (hnd : (l1 ++ a :: l2).Nodup)
    (hfresh : sm.menuAction ∉ pm.actions) :
    (((Gui.mk A (MS ++ [sm])).insertMenu m (some a) MS.length).1.removeAction m
        (some a)).insertAction m ((Gui.mk A (MS ++ [sm])).insertMenu m (some a) MS.length).2
        (some a)
      = { actions := A,
          menus := modifyAt
              (fun menu => { menu with actions := l1 ++ a :: sm.menuAction :: l2 }) m MS
            ++ [sm] } := by
  have hlt : m < MS.length := getElem?_lt_of_some _ _ _ hpm
  have hpm1 : (MS ++ [sm])[m]? = some pm := by
    rw [List.getElem?_append_left hlt]
    exact hpm
  have ha1 : a ∉ l1 := by
    intro hm
    have := List.nodup_append.mp hnd
    exact this.2.2 hm (List.mem_cons_self _ _)
  have ha2 : a ∉ l2 := by
    have := (List.nodup_append.mp hnd).2.1
    exact (List.nodup_cons.mp this).1
  have h01 : sm.menuAction ∉ l1 := fun hm => hfresh (by rw [hM]; exact List.mem_append_left _ hm)
  have h0a : sm.menuAction ≠ a := fun e =>
    hfresh (by rw [hM, e]; exact List.mem_append_right _ (List.mem_cons_self _ _))
  have hma : (Gui.mk A (MS ++ [sm])).menuActionOf MS.length = some sm.menuAction := by
    simp [Gui.menuActionOf]
  have hlen : ∀ f : QMenu → QMenu, (modifyAt f m MS).length = MS.length :=
    fun f => modifyAt_length f m MS
  have hact : (insertBefore (some a) sm.menuAction pm.actions).filter (fun x => x != a)
      = l1 ++ sm.menuAction :: l2 := by
    rw [hM, insertBefore_some a _ l2 l1 ha1, List.filter_append, filter_ne_self a l1 ha1,
      List.filter_cons_of_pos (by simpa using h0a), List.filter_cons_of_neg (by simp),
      filter_ne_self a l2 ha2]
  have s1 : (Gui.mk A (MS ++ [sm])).insertAction m (some a) (some sm.menuAction)
      = Gui.mk A (modifyAt (fun menu => { menu with
          actions := insertBefore (some a) sm.menuAction menu.actions }) m MS ++ [sm]) := by
    rw [insertAction_fresh _ _ _ _ (by rw [menuActions_mk _ _ _ _ hpm1]; exact hfresh),
      modifyAt_append_left _ _ _ _ hlt]
  have s2 : (Gui.mk A (modifyAt (fun menu => { menu with
          actions := insertBefore (some a) sm.menuAction menu.actions }) m MS ++ [sm])).removeAction m
        (some a)
      = Gui.mk A (modifyAt (fun menu => { menu with
          actions := (insertBefore (some a) sm.menuAction menu.actions).filter
            (fun x => x != a) }) m MS ++ [sm]) := by
    rw [removeAction_state, modifyAt_append_left _ _ _ _ (by rw [hlen]; exact hlt),
      modifyAt_modifyAt]
  have hpm3 : (modifyAt (fun menu : QMenu => { menu with
          actions := (insertBefore (some a) sm.menuAction menu.actions).filter
            (fun x => x != a) }) m MS ++ [sm])[m]? = some { pm with actions := l1 ++ sm.menuAction :: l2 } := by
    rw [List.getElem?_append_left (by rw [hlen]; exact hlt), modifyAt_getElem?, if_pos rfl,
      hpm]
    simp only [Option.map_some', hact]
  simp only [Gui.insertMenu, hma]
  rw [s1, s2, insertAction_fresh]
  · rw [modifyAt_append_left _ _ _ _ (by rw [hlen]; exact hlt), modifyAt_modifyAt]
    congr 2
    apply modifyAt_congr
    intro x hx
    rw [hpm] at hx
    have hx' := Option.some.inj hx
    subst hx'
    simp only [hact]
    rw [insertBefore_some _ a l2 l1 h01]
  · rw [menuActions_mk _ _ _ _ hpm3]
    simp only [List.mem_append, List.mem_cons]
    rintro (h | h | h)
    · exact ha1 h
    · exact h0a h.symm
    · exact ha2 h

theorem initCopyAsMenu_state (env : Env) (A : List QAction) (MS : List QMenu)
    (p_menu : Nat) (pm : QMenu) (a : Nat) (l1 l2 : List Nat)
    (hne : env.getCopyTargetsName ≠ [])
    (hpm : MS[p_menu]? = some pm) (hv : ∀ id ∈ pm.actions, id < A.length)
    (hM : pm.actions = l1 ++ a :: l2) (hnd : (l1 ++ a :: l2).Nodup) :
    initCopyAsMenu env (Gui.mk A MS) (some a) p_menu
      = { actions := A ++
            [{ text := env.tr "Copy As".toList, data := [], toolTip := [], visible := true,
               separator := false, menu := some MS.length }]
            ++ env.getCopyTargetsName.map
                (targetAction env
                  "Copy selected content using rules specified by target %1".toList),
          menus := modifyAt
              (fun menu => { menu with actions := l1 ++ a :: A.length :: l2 }) p_menu MS
            ++ [{ title := env.tr "Copy As".toList, toolTipsVisible := true,
                  actions := List.range' (A.length + 1) env.getCopyTargetsName.length,
                  menuAction := A.length }] } := by
  have e1 : env.getCopyTargetsName.isEmpty = false := by
    cases h : env.getCopyTargetsName with
    | nil => exact absurd h hne
    | cons _ _ => rfl
  simp only [initCopyAsMenu, e1, Gui.newMenu, Gui.setToolTipsVisible, modifyAt_append_last]
  rw [if_neg (by simp), addTargetActions_spec _ _ _ _ _ _ (by simp)]
  have hA1 : ∀ x : QAction, (A ++ [x]).length = A.length + 1 := by
    intro x
    simp only [List.length_append, List.length_cons, List.length_nil]
  rw [insertMenu_remove_insert _ _ _ _ pm a l1 l2 hpm hM hnd]
  · simp only [hA1, List.nil_append]
  · intro hmem
    exact absurd (hv _ hmem) (Nat.lt_irrefl _)

theorem submenu_actions (env : Env) (toolTip : QString) :
    ∀ (targets : List QString) (P tail : List QAction),
      (List.range' P.length targets.length).map
          (fun id => ((P ++ targets.map (targetAction env toolTip) ++ tail)[id]?).map
            (fun act => (act.text, act.data)))
        = targets.map (fun t => some (t, t))
  | [], _, _ => rfl
  | t :: rest, P, tail => by
    have ih := submenu_actions env toolTip rest (P ++ [targetAction env toolTip t]) tail
    have e : P ++ List.map (targetAction env toolTip) (t :: rest) ++ tail
        = P ++ [targetAction env toolTip t] ++ List.map (targetAction env toolTip) rest ++ tail := by
      simp
    have hl : (P ++ [targetAction env toolTip t]).length = P.length + 1 := by simp
    rw [hl, ← e] at ih
    have h0 : (P ++ List.map (targetAction env toolTip) (t :: rest) ++ tail)[P.length]?
        = some (targetAction env toolTip t) := by
      rw [List.append_assoc, List.getElem?_append_right (Nat.le_refl _)]
      simp
    simp only [List.length_cons, List.range'_succ, List.map_cons, List.cons.injEq]
    refine ⟨?_, ?_⟩
    · simp only [List.map_cons] at h0
      rw [h0]
      rfl
    · simpa using ih

theorem submenu_actions_tail (env : Env) (toolTip : QString) (targets : List QString)
    (A : List QAction) (x : QAction) (tail : List QAction) :
    (List.range' (A.length + 1) targets.length).map
        (fun id => ((A ++ [x] ++ targets.map (targetAction env toolTip) ++ tail)[id]?).map
          (fun act => (act.text, act.data)))
      = targets.map (fun t => some (t, t)) := by
  have h := submenu_actions env toolTip targets (A ++ [x]) tail
  have hl : (A ++ [x]).length = A.length + 1 := by simp
  rw [hl] at h
  exact h

theorem submenu_actions_end (env : Env) (toolTip : QString) (targets : List QString)
    (A : List QAction) (x : QAction) :
    (List.range' (A.length + 1) targets.length).map
        (fun id => ((A ++ [x] ++ targets.map (targetAction env toolTip))[id]?).map
          (fun act => (act.text, act.data)))
      = targets.map (fun t => some (t, t)) := by
  have h := submenu_actions_tail env toolTip targets A x []
  simpa using h

theorem getElem?_concat_at {α : Type} (P : List α) (y : α) (n : Nat) (h : n = P.length) :
    (P ++ [y])[n]? = some y := by
  rw [h, List.getElem?_concat_length]

theorem getElem?_mid {α : Type} (A : List α) (x : α) (rest : List α) :
    (A ++ [x] ++ rest)[A.length]? = some x := by
  rw [List.append_assoc, List.getElem?_append_right (Nat.le_refl _)]
  simp

theorem getElem?_mid_tail {α : Type} (A : List α) (x : α) (rest tail : List α) :
    (A ++ [x] ++ rest ++ tail)[A.length]? = some x := by
  rw [List.append_assoc (A ++ [x])]
  exact getElem?_mid A x (rest ++ tail)

theorem getElem?_old {α : Type} (A : List α) (x : α) (rest : List α) (id : Nat)
    (h : id < A.length) : (A ++ [x] ++ rest)[id]? = A[id]? := by
  rw [List.append_assoc, List.getElem?_append_left h]

theorem getElem?_old_tail {α : Type} (A : List α) (x : α) (rest tail : List α) (id : Nat)
    (h : id < A.length) : (A ++ [x] ++ rest ++ tail)[id]? = A[id]? := by
  rw [List.append_assoc (A ++ [x])]
  exact getElem?_old A x (rest ++ tail) id h

/-- C7: `initCopyAsMenu` and `initCopyAllAsMenu` skip on an empty list of
targets and list every target otherwise. With no target both leave the heap,
and so the actions of the menu, as they were. With targets, for a menu whose
actions are valid pointers, `initCopyAllAsMenu` appends a new separator and
the action of one new submenu to the actions of the menu, and
`initCopyAsMenu`, called with an action of the menu whose actions have no
duplicate, puts the action of one new submenu directly behind that action and
changes nothing else of the list. In both cases the actions of the submenu
are, in the order and number of the targets, one action per target whose text
and data are the target, and the actions that existed before are untouched. -/
theorem initCopyMenus_list_targets (env : Env) (g : Gui) (p_after : Option Nat)
    (p_menu : Nat) :
    (env.getCopyTargetsName = [] →
        initCopyAsMenu env g p_after p_menu = g ∧ initCopyAllAsMenu env g p_menu = g)
    ∧ (env.getCopyTargetsName ≠ [] →
        ∀ pm : QMenu, g.menus[p_menu]? = some pm →
          (∀ id ∈ pm.actions, id < g.actions.length) →
          ((initCopyAllAsMenu env g p_menu).menuActions p_menu
              = pm.actions ++ [g.actions.length + 1 + env.getCopyTargetsName.length,
                  g.actions.length]
            ∧ ((initCopyAllAsMenu env g p_menu).actions[g.actions.length + 1
                  + env.getCopyTargetsName.length]?).map (fun act => (act.separator, act.menu))
                = some (true, none)
            ∧ ((initCopyAllAsMenu env g p_menu).actions[g.actions.length]?).map
                  (fun act => (act.text, act.menu))
                = some (env.tr "Copy All As".toList, some g.menus.length)
            ∧ ((initCopyAllAsMenu env g p_menu).menuActions g.menus.length).map
                  (fun id => ((initCopyAllAsMenu env g p_menu).actions[id]?).map
                    (fun act => (act.text, act.data)))
                = env.getCopyTargetsName.map (fun t => some (t, t))
            ∧ ∀ id, id < g.actions.length →
                (initCopyAllAsMenu env g p_menu).actions[id]? = g.actions[id]?)
          ∧ ∀ (a : Nat) (l1 l2 : List Nat), p_after = some a → pm.actions = l1 ++ a :: l2 →
              (l1 ++ a :: l2).Nodup →
              (initCopyAsMenu env g p_after p_menu).menuActions p_menu
                  = l1 ++ a :: g.actions.length :: l2
              ∧ ((initCopyAsMenu env g p_after p_menu).actions[g.actions.length]?).map
                    (fun act => (act.text, act.menu))
                  = some (env.tr "Copy As".toList, some g.menus.length)
              ∧ ((initCopyAsMenu env g p_after p_menu).menuActions g.menus.length).map
                    (fun id => ((initCopyAsMenu env g p_after p_menu).actions[id]?).map
                      (fun act => (act.text, act.data)))
                  = env.getCopyTargetsName.map (fun t => some (t, t))
              ∧ ∀ id, id < g.actions.length →
                  (initCopyAsMenu env g p_after p_menu).actions[id]? = g.actions[id]?) := by
  obtain ⟨A, MS⟩ := g
  constructor
  · intro h
    simp [initCopyAsMenu, initCopyAllAsMenu, h]
  · intro hne pm hpm hv
    have hlt : p_menu < MS.length := getElem?_lt_of_some _ _ _ hpm
    have hlen : ∀ f : QMenu → QMenu, (modifyAt f p_menu MS).length = MS.length :=
      fun f => modifyAt_length f p_menu MS
    have hget : ∀ (f : QMenu → QMenu) (x : QMenu),
        (modifyAt f p_menu MS ++ [x])[p_menu]? = some (f pm) := by
      intro f x
      rw [List.getElem?_append_left (by rw [hlen]; exact hlt), modifyAt_getElem?, if_pos rfl]
      have : MS[p_menu]? = some pm := hpm
      rw [this]
      rfl
    have hsub : ∀ (f : QMenu → QMenu) (x : QMenu),
        (modifyAt f p_menu MS ++ [x])[MS.length]? = some x := by
      intro f x
      rw [← hlen f, List.getElem?_concat_length]
    constructor
    · rw [initCopyAllAsMenu_state env A MS p_menu pm hne hpm hv]
      refine ⟨?_, ?_, ?_, ?_, ?_⟩
      · rw [menuActions_mk _ _ _ _ (hget _ _)]
        simp
      · simp only
        rw [getElem?_concat_at _ _ _ (by
          simp only [List.length_append, List.length_cons, List.length_nil, List.length_map])]
        rfl
      · simp only
        rw [getElem?_mid_tail]
        rfl
      · rw [menuActions_mk _ _ _ _ (hsub _ _)]
        exact submenu_actions_tail env _ _ _ _ _
      · intro id hid
        exact getElem?_old_tail _ _ _ _ id hid
    · intro a l1 l2 hp hM hnd
      subst hp
      rw [initCopyAsMenu_state env A MS p_menu pm a l1 l2 hne hpm hv hM hnd]
      refine ⟨?_, ?_, ?_, ?_⟩
      · rw [menuActions_mk _ _ _ _ (hget _ _)]
      · simp only
        rw [getElem?_mid]
        rfl
      · rw [menuActions_mk _ _ _ _ (hsub _ _)]
        exact submenu_actions_end env _ _ _ _
      · intro id hid
        exact getElem?_old _ _ _ id hid

/-- C7 (witness): with the targets `Word` and `OneNote`, `initCopyAsMenu` called
with the Copy action of the sample menu puts the action of the new submenu
behind it. -/
theorem initCopyMenus_list_targets_witness :
    (initCopyAsMenu sampleEnv sampleGui (some 1) 0).menuActions 0 = [0, 1, 5, 2] :=
  (((initCopyMenus_list_targets sampleEnv sampleGui (some 1) 0).2 (by decide)
      { title := [], toolTipsVisible := true, actions := [0, 1, 2], menuAction := 9 } rfl
      (by decide)).2 1 [0] [2] rfl rfl (by decide)).1

/-- C8 (witness): in the sample menu the Back action is invisible after
`hideUnusedActions`. -/
theorem hideUnusedActions_hides_witness :
    (hideUnusedActions sampleEnv sampleGui 0).actions[0]?
      = some { text := "&Back".toList, data := [], toolTip := [], visible := false,
               separator := false, menu := none } :=
  (hideUnusedActions_hides sampleEnv sampleGui 0).2.2.2.1 0
    { text := "&Back".toList, data := [], toolTip := [], visible := true, separator := false,
      menu := none } rfl (by decide) (Or.inl rfl)

end VNote
